import Mathlib

/-!
Verification of the archive virtual-filesystem core of the file-manager
server (`src/server/src/archive.rs`).  The Rust functions are shallowly
embedded as executable Lean definitions: strings are Lean `String`s
(operated on through their underlying `List Char`), archive containers are
lists of the raw per-entry records the native libraries hand to the code,
and filesystem effects (paths written, directories created) are returned
as explicit lists.
-/

/-! ## Path normalizer (archive.rs, `normalise_inner` and friends) -/

/-- Rust `p.replace('\\', "/")` on a single character. -/
def slashify (c : Char) : Char := if c = '\\' then '/' else c

/-- Rust `trim_start_matches('/')`. -/
def ltrimSlash (l : List Char) : List Char := l.dropWhile (fun c => c = '/')

/-- Rust `trim_end_matches('/')`. -/
def rtrimSlash (l : List Char) : List Char :=
  (l.reverse.dropWhile (fun c => c = '/')).reverse

/-- Char-level body of `normalise_inner`: replace `\` with `/`, strip all
leading and trailing `/`. -/
def normChars (l : List Char) : List Char :=
  rtrimSlash (ltrimSlash (l.map slashify))

/-- The function `normalise_inner` (archive.rs lines 116-121). -/
def normalise_inner (s : String) : String := ⟨normChars s.data⟩

/-- Rust `entry.split('/').next().unwrap_or(entry)`: the first `/`-delimited
segment of a path. -/
def firstSegChars (l : List Char) : List Char := l.takeWhile (fun c => c ≠ '/')

/-- Rust `child_path.rsplit('/').next().unwrap_or(&child_path)`: the last
`/`-delimited segment of a path. -/
def lastSegChars (l : List Char) : List Char :=
  (l.reverse.takeWhile (fun c => c ≠ '/')).reverse

/-- The function `direct_child_path` (archive.rs lines 137-145): the direct-child key of
`entry` relative to `parent`.  The Rust slice `&entry[parent.len() + 1..]`
is modelled as dropping `parent.length + 1` characters, which agrees with
the byte slice whenever `parent ++ "/"` is a prefix of `entry` — the only
situation in which the source calls this function. -/
def direct_child_path (entry parent : String) : String :=
  if parent = "" then ⟨firstSegChars entry.data⟩
  else parent ++ "/" ++ ⟨firstSegChars (entry.data.drop (parent.length + 1))⟩

/-- The function `is_direct_child` (archive.rs lines 125-133). -/
def is_direct_child (entry parent : String) : Bool :=
  if parent = "" then !entry.data.any (fun c => c = '/')
  else (parent.data ++ ['/']).isPrefixOf entry.data
    && !(entry.data.drop (parent.length + 1)).any (fun c => c = '/')

/-! ## Idempotence of normalisation (claim C9) -/

theorem dropWhile_idem (p : Char → Bool) (l : List Char) :
    (l.dropWhile p).dropWhile p = l.dropWhile p := by
  induction l with
  | nil => rfl
  | cons a l ih =>
    by_cases h : p a = true
    · simp [List.dropWhile_cons, h, ih]
    · simp [List.dropWhile_cons, h]

theorem rtrimSlash_idem (l : List Char) :
    rtrimSlash (rtrimSlash l) = rtrimSlash l := by
  unfold rtrimSlash
  rw [List.reverse_reverse, dropWhile_idem]

theorem mem_of_mem_rtrimSlash {c : Char} {l : List Char}
    (h : c ∈ rtrimSlash l) : c ∈ l := by
  unfold rtrimSlash at h
  rw [List.mem_reverse] at h
  have := (List.dropWhile_sublist (fun c => c = '/')).subset h
  rwa [List.mem_reverse] at this

theorem mem_of_mem_ltrimSlash {c : Char} {l : List Char}
    (h : c ∈ ltrimSlash l) : c ∈ l :=
  (List.dropWhile_sublist (fun c => c = '/')).subset h

theorem slashify_slashify (c : Char) : slashify (slashify c) = slashify c := by
  unfold slashify
  by_cases h : c = '\\' <;> simp [h]

/-- Each character surviving normalisation is already slash-normalised. -/
theorem slashify_of_mem_normChars {c : Char} {l : List Char}
    (h : c ∈ normChars l) : slashify c = c := by
  unfold normChars at h
  have h1 : c ∈ l.map slashify :=
    mem_of_mem_ltrimSlash (mem_of_mem_rtrimSlash h)
  rcases List.mem_map.1 h1 with ⟨a, _, rfl⟩
  exact slashify_slashify a

/-- A list that loses nothing to `dropWhile p` still loses nothing after its
tail is trimmed away. -/
theorem dropWhile_eq_self_of_append {p : Char → Bool} {a b : List Char}
    (h : (a ++ b).dropWhile p = a ++ b) : a.dropWhile p = a := by
  cases a with
  | nil => rfl
  | cons x xs =>
    by_cases hx : p x = true
    · exfalso
      rw [List.cons_append, List.dropWhile_cons, if_pos hx] at h
      have hlen := (show List.Sublist ((xs ++ b).dropWhile p) (xs ++ b) from
        List.dropWhile_sublist p).length_le
      rw [h] at hlen
      simp at hlen
    · simp [List.dropWhile_cons, hx]

/-- The trim `rtrimSlash` keeps an initial segment of its input. -/
theorem rtrimSlash_append (l : List Char) :
    ∃ t, rtrimSlash l ++ t = l := by
  refine ⟨(l.reverse.takeWhile (fun c => c = '/')).reverse, ?_⟩
  have h := List.takeWhile_append_dropWhile (fun c => c = '/') l.reverse
  calc rtrimSlash l ++ (l.reverse.takeWhile (fun c => c = '/')).reverse
      = (l.reverse.takeWhile (fun c => c = '/') ++
          l.reverse.dropWhile (fun c => c = '/')).reverse := by
        unfold rtrimSlash
        rw [List.reverse_append]
    _ = l := by rw [h, List.reverse_reverse]

theorem ltrimSlash_rtrimSlash_ltrimSlash (m : List Char) :
    ltrimSlash (rtrimSlash (ltrimSlash m)) = rtrimSlash (ltrimSlash m) := by
  obtain ⟨t, ht⟩ := rtrimSlash_append (ltrimSlash m)
  have hself : (ltrimSlash m).dropWhile (fun c => c = '/') = ltrimSlash m :=
    dropWhile_idem _ m
  rw [← ht] at hself
  exact dropWhile_eq_self_of_append hself

theorem map_slashify_of_forall {l : List Char}
    (h : ∀ c ∈ l, slashify c = c) : l.map slashify = l := by
  induction l with
  | nil => rfl
  | cons a l ih =>
    simp only [List.map_cons, h a (List.mem_cons_self a l)]
    rw [ih fun c hc => h c (List.mem_cons_of_mem a hc)]

/-- Char-level idempotence of normalisation. -/
theorem normChars_idem (l : List Char) :
    normChars (normChars l) = normChars l := by
  have hmap : (normChars l).map slashify = normChars l :=
    map_slashify_of_forall fun c hc => slashify_of_mem_normChars hc
  show rtrimSlash (ltrimSlash ((normChars l).map slashify)) = normChars l
  rw [hmap]
  show rtrimSlash (ltrimSlash (rtrimSlash (ltrimSlash (l.map slashify))))
      = normChars l
  rw [ltrimSlash_rtrimSlash_ltrimSlash, rtrimSlash_idem]
  rfl

/-- Claim C9: path normalisation is idempotent — for every input string `p`,
`normalise_inner (normalise_inner p) = normalise_inner p`, where
`normalise_inner` replaces every backslash with a forward slash and strips
all leading and trailing slashes. -/
theorem claim_C9_normalise_idempotent (p : String) :
    normalise_inner (normalise_inner p) = normalise_inner p := by
  show (⟨normChars (String.data ⟨normChars p.data⟩)⟩ : String)
      = ⟨normChars p.data⟩
  rw [show (String.data ⟨normChars p.data⟩) = normChars p.data from rfl,
    normChars_idem]

/-! ## Format detection (archive.rs, `ArchiveFormat`) -/

inductive ArchiveFormat where
  | Zip | Tar | TarGz | TarBz2 | TarXz | TarZst
  | Gz | Bz2 | Xz | Zst
  | SevenZip | Rar | Cab | Arj | Lzh | Ace
deriving DecidableEq, Repr

/-- Rust `ArchiveFormat::as_str` (archive.rs lines 38-60). -/
def ArchiveFormat.as_str : ArchiveFormat → String
  | .Zip => "zip"
  | .Tar => "tar"
  | .TarGz => "tar.gz"
  | .TarBz2 => "tar.bz2"
  | .TarXz => "tar.xz"
  | .TarZst => "tar.zst"
  | .Gz => "gz"
  | .Bz2 => "bz2"
  | .Xz => "xz"
  | .Zst => "zst"
  | .SevenZip => "7z"
  | .Rar => "rar"
  | .Cab => "cab"
  | .Arj => "arj"
  | .Lzh => "lzh"
  | .Ace => "ace"

/-- Rust `ArchiveFormat::detect` (archive.rs lines 63-108): lower-case the path
and test an ordered chain of suffix rules. -/
def ArchiveFormat.detect (path : String) : Option ArchiveFormat :=
  let lower := path.data.map Char.toLower
  let ends := fun (suf : String) => suf.data.isSuffixOf lower
  if ends ".tar.gz" || ends ".tgz" then some .TarGz
  else if ends ".tar.bz2" || ends ".tbz2" || ends ".tbz" then some .TarBz2
  else if ends ".tar.xz" || ends ".txz" then some .TarXz
  else if ends ".tar.zst" || ends ".tar.zstd" || ends ".tzst" then some .TarZst
  else if ends ".tar" then some .Tar
  else if ends ".zip" || ends ".jar" || ends ".war" || ends ".ear"
      || ends ".apk" || ends ".docx" || ends ".xlsx" || ends ".pptx"
      || ends ".odt" || ends ".ods" || ends ".odp" then some .Zip
  else if ends ".gz" then some .Gz
  else if ends ".bz2" then some .Bz2
  else if ends ".xz" then some .Xz
  else if ends ".zst" || ends ".zstd" then some .Zst
  else if ends ".7z" then some .SevenZip
  else if ends ".rar" then some .Rar
  else if ends ".cab" then some .Cab
  else if ends ".arj" then some .Arj
  else if ends ".lzh" || ends ".lha" then some .Lzh
  else if ends ".ace" then some .Ace
  else none

/-! ## Result data model (protocol.rs, `ArchiveEntry` / `ArchiveListing`) -/

inductive ArchiveEntryType where
  | File
  | Directory
deriving DecidableEq, Repr

structure ArchiveEntry where
  name : String
  inner_path : String
  entry_type : ArchiveEntryType
  size : Nat
  compressed_size : Nat
  modified : Int
  compression : String
deriving DecidableEq, Repr

structure ArchiveListing where
  archive_path : String
  inner_path : String
  format : String
  entries : List ArchiveEntry
  total_size : Nat
deriving DecidableEq, Repr

/-! ## The sort comparator (archive.rs lines 233-238 and copies) -/

/-- Rust `matches!(e.entry_type, ArchiveEntryType::Directory)`. -/
def isDirB (e : ArchiveEntry) : Bool :=
  match e.entry_type with
  | .Directory => true
  | .File => false

/-- Rust `bool` ordering: `false < true`. -/
def boolCmp : Bool → Bool → Ordering
  | false, false => .eq
  | false, true => .lt
  | true, false => .gt
  | true, true => .eq

/-- Rust `String` ordering: lexicographic byte comparison, which coincides
with lexicographic code-point comparison because UTF-8 is order-preserving. -/
def lexCmp : List Char → List Char → Ordering
  | [], [] => .eq
  | [], _ :: _ => .lt
  | _ :: _, [] => .gt
  | a :: as, b :: bs => (compare a.toNat b.toNat).then (lexCmp as bs)

/-- The comparator passed to `entries.sort_by` in `list_zip` /
`list_tar_reader` and the other hierarchical backends: directories before
files, then name ascending. -/
def entry_cmp (a b : ArchiveEntry) : Ordering :=
  (boolCmp (isDirB b) (isDirB a)).then (lexCmp a.name.data b.name.data)

/-- Rust `sort_by` keeps `a` before `b` when the comparator does not answer
`Greater`. -/
def entryLE (a b : ArchiveEntry) : Prop := entry_cmp a b ≠ Ordering.gt

instance : DecidableRel entryLE := fun a b => by
  unfold entryLE; infer_instance

/-- The comparator of `list_cab` (archive.rs line 562): name only. -/
def name_cmp (a b : ArchiveEntry) : Ordering := lexCmp a.name.data b.name.data

def nameLE (a b : ArchiveEntry) : Prop := name_cmp a b ≠ Ordering.gt

instance : DecidableRel nameLE := fun a b => by
  unfold nameLE; infer_instance

/-! ## Claim C8: extension-based detection with compound-suffix precedence -/

/-- Claim C8: format detection is extension-based with compound-suffix
precedence — `detect "report.tar.gz" = TarGz`, `detect "report.gz" = Gz`,
`detect "notes.txt" = none`, and any path whose lower-cased form ends in
`.tar.gz` is classified `TarGz`, never bare `Gz`. -/
theorem claim_C8_detect :
    ArchiveFormat.detect "report.tar.gz" = some ArchiveFormat.TarGz
    ∧ ArchiveFormat.detect "report.gz" = some ArchiveFormat.Gz
    ∧ ArchiveFormat.detect "notes.txt" = none
    ∧ ∀ p : String,
        ".tar.gz".data.isSuffixOf (p.data.map Char.toLower) = true →
        ArchiveFormat.detect p = some ArchiveFormat.TarGz := by
  refine ⟨by decide, by decide, by decide, fun p h => ?_⟩
  unfold ArchiveFormat.detect
  simp only [h, Bool.true_or, if_pos]

/-- Witness for claim C8's universally quantified clause, at the concrete
path `"backup.TAR.GZ"` (detection is case-insensitive). -/
theorem claim_C8_detect_witness :
    ArchiveFormat.detect "backup.TAR.GZ" = some ArchiveFormat.TarGz :=
  claim_C8_detect.2.2.2 "backup.TAR.GZ" (by decide)

/-! ## Comparator laws -/

theorem then_ne_gt {o p : Ordering} :
    o.then p ≠ Ordering.gt ↔
      o = Ordering.lt ∨ (o = Ordering.eq ∧ p ≠ Ordering.gt) := by
  cases o <;> simp [Ordering.then]

theorem then_swap (o p : Ordering) : (o.then p).swap = o.swap.then p.swap := by
  cases o <;> rfl

theorem lexCmp_swap (a : List Char) : ∀ b, lexCmp b a = (lexCmp a b).swap := by
  induction a with
  | nil => intro b; cases b <;> rfl
  | cons x xs ih =>
    intro b
    cases b with
    | nil => rfl
    | cons y ys =>
      show (compare y.toNat x.toNat).then (lexCmp ys xs)
          = ((compare x.toNat y.toNat).then (lexCmp xs ys)).swap
      rw [then_swap, Nat.compare_swap, ih ys]

theorem lexLe_total (x y : List Char) : lexCmp x y ≠ .gt ∨ lexCmp y x ≠ .gt := by
  cases h : lexCmp x y with
  | gt =>
    right
    rw [lexCmp_swap x y, h]
    simp [Ordering.swap]
  | lt => left; simp [h]
  | eq => left; simp [h]

theorem lexLe_trans : ∀ {x y z : List Char},
    lexCmp x y ≠ .gt → lexCmp y z ≠ .gt → lexCmp x z ≠ .gt := by
  intro x
  induction x with
  | nil =>
    intro y z _ _
    cases z <;> simp [lexCmp]
  | cons a as ih =>
    intro y z h1 h2
    cases y with
    | nil => simp [lexCmp] at h1
    | cons b bs =>
      cases z with
      | nil => simp [lexCmp] at h2
      | cons c cs =>
        have h1' := then_ne_gt.mp h1
        have h2' := then_ne_gt.mp h2
        refine then_ne_gt.mpr ?_
        rcases h1' with hab | ⟨hab, t1⟩
        · rcases h2' with hbc | ⟨hbc, t2⟩
          · exact Or.inl (Nat.compare_eq_lt.mpr
              (Nat.lt_trans (Nat.compare_eq_lt.mp hab) (Nat.compare_eq_lt.mp hbc)))
          · have hb := Nat.compare_eq_eq.mp hbc
            exact Or.inl (Nat.compare_eq_lt.mpr (hb ▸ Nat.compare_eq_lt.mp hab))
        · rcases h2' with hbc | ⟨hbc, t2⟩
          · have hb := Nat.compare_eq_eq.mp hab
            exact Or.inl (Nat.compare_eq_lt.mpr (hb ▸ Nat.compare_eq_lt.mp hbc))
          · refine Or.inr ⟨Nat.compare_eq_eq.mpr
              ((Nat.compare_eq_eq.mp hab).trans (Nat.compare_eq_eq.mp hbc)), ?_⟩
            exact ih t1 t2

theorem lt_then_ne_gt (p : Ordering) : Ordering.lt.then p ≠ Ordering.gt :=
  fun h => nomatch h

instance : IsTotal ArchiveEntry entryLE := by
  constructor
  intro a b
  unfold entryLE entry_cmp
  rcases Bool.eq_false_or_eq_true (isDirB a) with ha | ha <;>
    rcases Bool.eq_false_or_eq_true (isDirB b) with hb | hb <;>
    rw [ha, hb] <;>
    first
      | exact lexLe_total a.name.data b.name.data
      | (left; exact lt_then_ne_gt _)
      | (right; exact lt_then_ne_gt _)

instance : IsTrans ArchiveEntry entryLE := by
  constructor
  intro a b c h1 h2
  unfold entryLE entry_cmp at h1 h2 ⊢
  rcases Bool.eq_false_or_eq_true (isDirB a) with ha | ha <;>
    rcases Bool.eq_false_or_eq_true (isDirB b) with hb | hb <;>
    rcases Bool.eq_false_or_eq_true (isDirB c) with hc | hc <;>
    rw [ha, hb] at h1 <;> rw [hb, hc] at h2 <;> rw [ha, hc] <;>
    first
      | exact lexLe_trans h1 h2
      | exact absurd rfl h1
      | exact absurd rfl h2
      | exact lt_then_ne_gt _

instance : IsTotal ArchiveEntry nameLE := by
  constructor
  intro a b
  unfold nameLE name_cmp
  exact lexLe_total a.name.data b.name.data

instance : IsTrans ArchiveEntry nameLE := by
  constructor
  intro a b c h1 h2
  unfold nameLE name_cmp at h1 h2 ⊢
  exact lexLe_trans h1 h2

/-! ## Raw backend entry records

Each backend hands the listing loop a stream of native entry records; the
fields below are exactly the projections the Rust code reads from them. -/

/-- One `zip::read::ZipFile` as consumed by `list_zip`: `entry.name()`,
`entry.is_dir()`, `entry.size()`, `entry.compressed_size()`, the timestamp
computed from `entry.last_modified()`, and the Debug rendering of
`entry.compression()`. -/
structure ZipRawEntry where
  raw_name : String
  is_dir : Bool
  size : Nat
  compressed_size : Nat
  modified : Int
  compression : String
deriving DecidableEq, Repr

/-- One tar entry as consumed by `list_tar_reader`: the entry path, the
header's directory flag (the `|| ... && false` arm in the source is dead),
`mtime` and `size`. -/
structure TarRawEntry where
  path_raw : String
  is_dir : Bool
  mtime : Int
  size : Nat
deriving DecidableEq, Repr

/-- One CAB file record as consumed by `list_cab` (the folder × file
iteration flattened in order): `file.name()`, sizes, and the Debug rendering
of the folder's `compression_type()`. -/
structure CabRawEntry where
  name : String
  uncompressed_size : Nat
  compressed_size : Nat
  compression : String
deriving DecidableEq, Repr

/-! ## The shared listing loop

`list_zip`, `list_tar_reader`, `list_cab` (and the other optional backends)
are textual copies of one loop; it is embedded once, parameterized by the
projection to the raw path, the skip test, and the explicit/synthesized
entry construction, and instantiated per backend below. -/

/-- Rust `seen.entry(k).or_insert_with(v)`: insert only when the key is absent. -/
def upsertAbsent (seen : List (String × ArchiveEntry)) (k : String)
    (v : ArchiveEntry) : List (String × ArchiveEntry) :=
  if seen.any (fun p => p.1 == k) then seen else seen ++ [(k, v)]

/-- Lookup in the association-list model of the `HashMap`. -/
def assocFind (seen : List (String × ArchiveEntry)) (k : String) :
    Option ArchiveEntry :=
  (seen.find? (fun p => p.1 == k)).map (fun p => p.2)

/-- One iteration of the listing loop (archive.rs lines 159-231 for Zip and
its per-backend copies): normalise the entry path, skip blanks, skip
entries outside the subtree or equal to the listed parent, compute the
direct-child key and insert the entry `mk` chooses, if any. -/
def childStep {ρ : Type} (getName : ρ → String) (skip : String → Bool)
    (mk : ρ → String → String → String → Option ArchiveEntry)
    (parent : String) (seen : List (String × ArchiveEntry)) (e : ρ) :
    List (String × ArchiveEntry) :=
  if skip (normalise_inner (getName e)) then seen
  else if !((parent == "") || (normalise_inner (getName e) == parent)
      || (parent ++ "/").data.isPrefixOf (normalise_inner (getName e)).data)
      || (normalise_inner (getName e) == parent) then seen
  else
    match mk e (normalise_inner (getName e))
        (direct_child_path (normalise_inner (getName e)) parent)
        ⟨lastSegChars
          (direct_child_path (normalise_inner (getName e)) parent).data⟩ with
    | some v =>
        upsertAbsent seen
          (direct_child_path (normalise_inner (getName e)) parent) v
    | none => seen

/-- The full iteration of the listing loop over a backend's entry stream. -/
def buildSeen {ρ : Type} (getName : ρ → String) (skip : String → Bool)
    (mk : ρ → String → String → String → Option ArchiveEntry)
    (parent : String) (raws : List ρ) : List (String × ArchiveEntry) :=
  raws.foldl (childStep getName skip mk parent) []

/-- The skip test of `list_zip`: blank names only. -/
def zipSkip (name : String) : Bool := name == ""

/-- The entry construction of `list_zip` (archive.rs lines 185-230): real
metadata when the survivor is itself the direct child, otherwise a
synthesized `Directory` with zero sizes, zero mtime, compression
`"Stored"`. -/
def zipMk (e : ZipRawEntry) (name child_path child_name : String) :
    Option ArchiveEntry :=
  if child_path == name then
    some ⟨child_name, child_path,
      if e.is_dir then ArchiveEntryType.Directory else ArchiveEntryType.File,
      e.size, e.compressed_size, e.modified, e.compression⟩
  else
    some ⟨child_name, child_path, ArchiveEntryType.Directory, 0, 0, 0,
      "Stored"⟩

/-- The function `list_zip` (archive.rs lines 151-249), over the stream of records the
zip library yields in index order. -/
def list_zip (raws : List ZipRawEntry) (archive_path inner_path : String) :
    ArchiveListing :=
  let parent := normalise_inner inner_path
  let seen := buildSeen (fun e => e.raw_name) zipSkip zipMk parent raws
  let entries := List.insertionSort entryLE (seen.map (fun p => p.2))
  ⟨archive_path, parent, ArchiveFormat.Zip.as_str, entries,
    (entries.map (fun e => e.size)).sum⟩

/-- The skip test of `list_tar_reader`: blank names and `"."`. -/
def tarSkip (name : String) : Bool := name == "" || name == "."

/-- The entry construction of `list_tar_reader` (archive.rs lines 302-326):
compressed size is always 0 and both real and synthesized entries carry the
format label as compression. -/
def tarMk (format : String) (e : TarRawEntry)
    (name child_path child_name : String) : Option ArchiveEntry :=
  if child_path == name then
    some ⟨child_name, child_path,
      if e.is_dir then ArchiveEntryType.Directory else ArchiveEntryType.File,
      e.size, 0, e.mtime, format⟩
  else
    some ⟨child_name, child_path, ArchiveEntryType.Directory, 0, 0, 0, format⟩

/-- The function `list_tar_reader` (archive.rs lines 255-345). -/
def list_tar_reader (raws : List TarRawEntry)
    (archive_path inner_path format : String) : ArchiveListing :=
  let parent := normalise_inner inner_path
  let seen := buildSeen (fun e => e.path_raw) tarSkip (tarMk format) parent raws
  let entries := List.insertionSort entryLE (seen.map (fun p => p.2))
  ⟨archive_path, parent, format, entries,
    (entries.map (fun e => e.size)).sum⟩

/-- The entry construction of `list_cab` (archive.rs lines 547-557): only
survivors that are themselves the direct child are inserted — there is no
`else` branch, so no directory is ever synthesized. -/
def cabMk (e : CabRawEntry) (name child_path child_name : String) :
    Option ArchiveEntry :=
  if child_path == name then
    some ⟨child_name, child_path, ArchiveEntryType.File,
      e.uncompressed_size, e.compressed_size, 0, e.compression⟩
  else none

/-- The function `list_cab` (archive.rs lines 515-573); its sort (line 562) compares
names only. -/
def list_cab (raws : List CabRawEntry) (archive_path inner_path : String) :
    ArchiveListing :=
  let parent := normalise_inner inner_path
  let seen := buildSeen (fun e => e.name) zipSkip cabMk parent raws
  let entries := List.insertionSort nameLE (seen.map (fun p => p.2))
  ⟨archive_path, parent, ArchiveFormat.Cab.as_str, entries,
    (entries.map (fun e => e.size)).sum⟩

/-! ## Single-file compressed listing (archive.rs lines 1065-1092) -/

/-- The stem of a file name per Rust `Path::file_stem`: the portion before
the final `.`, the whole name when it has no `.`, and the whole name when
its only `.` is the leading one. -/
def stemChars (f : List Char) : List Char :=
  if (f.reverse.takeWhile (fun c => c ≠ '.')).length = f.reverse.length then f
  else if (f.reverse.takeWhile (fun c => c ≠ '.')).length + 1
      = f.reverse.length then f
  else (f.reverse.drop
    ((f.reverse.takeWhile (fun c => c ≠ '.')).length + 1)).reverse

/-- Rust `Path::new(p).file_stem().and_then(|s| s.to_str())`: take the file-name
component (ignoring trailing slashes; `""`, `"."` and `".."` have none) and
strip its final extension. -/
def fileNameChars (p : String) : List Char :=
  lastSegChars ((p.data.reverse.dropWhile (fun c => c = '/')).reverse)

def path_file_stem (p : String) : Option String :=
  if fileNameChars p = [] ∨ fileNameChars p = ['.']
      ∨ fileNameChars p = ['.', '.'] then none
  else some ⟨stemChars (fileNameChars p)⟩

/-- The `Gz | Bz2 | Xz | Zst` arm of `list_archive`: one synthesized `File`
entry at the root named after the stem, sized to the archive's on-disk
size (`std::fs::metadata(..).len()`), which is passed in as `file_size`. -/
def list_archive_single (fmt : ArchiveFormat) (archive_path : String)
    (file_size : Nat) : ArchiveListing :=
  let stem := (path_file_stem archive_path).getD "file"
  ⟨archive_path, "", fmt.as_str,
    [⟨stem, stem, ArchiveEntryType.File, file_size, file_size, 0, fmt.as_str⟩],
    file_size⟩

/-! ## Structural lemmas about the listing loop -/

theorem strEq_of_data {s t : String} (h : s.data = t.data) : s = t := by
  cases s; cases t; cases h; rfl

theorem isPrefixOf_iff_exists_append : ∀ {l₁ l₂ : List Char},
    l₁.isPrefixOf l₂ = true ↔ ∃ t, l₁ ++ t = l₂ := by
  intro l₁
  induction l₁ with
  | nil => intro l₂; simp [List.isPrefixOf]
  | cons a as ih =>
    intro l₂
    cases l₂ with
    | nil => simp [List.isPrefixOf]
    | cons b bs =>
      simp only [List.isPrefixOf, Bool.and_eq_true, beq_iff_eq, ih]
      constructor
      · rintro ⟨rfl, t, rfl⟩
        exact ⟨t, rfl⟩
      · rintro ⟨t, h⟩
        rw [List.cons_append] at h
        cases h
        exact ⟨rfl, t, rfl⟩

theorem takeWhile_eq_self_of_forall {p : Char → Bool} : ∀ {l : List Char},
    (∀ c ∈ l, p c = true) → l.takeWhile p = l := by
  intro l
  induction l with
  | nil => intro _; rfl
  | cons a as ih =>
    intro h
    rw [List.takeWhile_cons, if_pos (h a (List.mem_cons_self a as))]
    rw [ih fun c hc => h c (List.mem_cons_of_mem a hc)]

theorem not_slash_of_mem_firstSegChars {c : Char} {l : List Char}
    (h : c ∈ firstSegChars l) : ¬ c = '/' := by
  have := List.mem_takeWhile_imp h
  exact of_decide_eq_true this

/-- The root-level direct-child key contains no slash, hence is its own
direct-child key. -/
theorem dcp_root_fixed (name : String) :
    direct_child_path (⟨firstSegChars name.data⟩ : String) "" =
      ⟨firstSegChars name.data⟩ := by
  unfold direct_child_path
  rw [if_pos rfl]
  apply strEq_of_data
  show firstSegChars (firstSegChars name.data) = firstSegChars name.data
  exact takeWhile_eq_self_of_forall fun c hc =>
    decide_eq_true (not_slash_of_mem_firstSegChars hc)

/-- A non-root direct-child key `parent ++ "/" ++ seg` with slash-free `seg`
is its own direct-child key. -/
theorem dcp_nonroot_fixed (parent seg : String) (hp : ¬ parent = "")
    (hseg : ∀ c ∈ seg.data, ¬ c = '/') :
    direct_child_path (parent ++ "/" ++ seg) parent = parent ++ "/" ++ seg := by
  unfold direct_child_path
  rw [if_neg hp]
  have hdata : (parent ++ "/" ++ seg).data
      = (parent.data ++ ['/']) ++ seg.data := by
    rw [String.data_append, String.data_append, List.append_assoc]
  have hdrop : (parent ++ "/" ++ seg).data.drop (parent.length + 1)
      = seg.data := by
    rw [hdata]
    have hlen : parent.length + 1 = (parent.data ++ ['/']).length := by
      rw [List.length_append]
      rfl
    rw [hlen, List.drop_left]
  rw [hdrop]
  congr 1
  apply strEq_of_data
  show firstSegChars seg.data = seg.data
  exact takeWhile_eq_self_of_forall fun c hc => decide_eq_true (hseg c hc)

theorem string_append_slash_data (parent : String) :
    (parent ++ "/").data = parent.data ++ ['/'] := by
  rw [String.data_append]

/-- In the non-root case, the computed direct-child key decomposes as
`parent ++ "/" ++ firstSeg rest` where `rest` is the path remainder. -/
theorem dcp_of_append (parent : String) (t : List Char) (name : String)
    (hp : ¬ parent = "") (ht : (parent ++ "/").data ++ t = name.data) :
    direct_child_path name parent
      = parent ++ "/" ++ (⟨firstSegChars t⟩ : String) := by
  unfold direct_child_path
  rw [if_neg hp]
  have hdrop : name.data.drop (parent.length + 1) = t := by
    rw [← ht, string_append_slash_data]
    have hlen : parent.length + 1 = (parent.data ++ ['/']).length := by
      rw [List.length_append]
      rfl
    rw [hlen, List.drop_left]
  rw [hdrop]

/-- Under the loop's guards, the computed direct-child key is a fixed point
of `direct_child_path` relative to the same parent. -/
theorem dcp_key_fixed (parent name : String)
    (hguard : ((parent == "") || (name == parent)
      || (parent ++ "/").data.isPrefixOf name.data) = true)
    (hne : (name == parent) = false) :
    direct_child_path (direct_child_path name parent) parent
      = direct_child_path name parent := by
  by_cases hp : parent = ""
  · subst hp
    rw [show direct_child_path name "" = ⟨firstSegChars name.data⟩ from
      if_pos rfl]
    exact dcp_root_fixed name
  · have hpre : (parent ++ "/").data.isPrefixOf name.data = true := by
      rcases Bool.or_eq_true_iff.mp hguard with h1 | h2
      · rcases Bool.or_eq_true_iff.mp h1 with hroot | heq
        · exact absurd (beq_iff_eq.mp hroot) hp
        · rw [heq] at hne; cases hne
      · exact h2
    obtain ⟨t, ht⟩ := isPrefixOf_iff_exists_append.mp hpre
    rw [dcp_of_append parent t name hp ht]
    exact dcp_nonroot_fixed parent ⟨firstSegChars t⟩ hp
      fun c hc => not_slash_of_mem_firstSegChars hc

theorem mem_upsertAbsent {seen : List (String × ArchiveEntry)} {k : String}
    {v : ArchiveEntry} {x : String × ArchiveEntry}
    (h : x ∈ upsertAbsent seen k v) : x ∈ seen ∨ x = (k, v) := by
  unfold upsertAbsent at h
  by_cases hc : seen.any (fun p => p.1 == k) = true
  · rw [if_pos hc] at h
    exact Or.inl h
  · rw [if_neg hc] at h
    rcases List.mem_append.mp h with h1 | h2
    · exact Or.inl h1
    · exact Or.inr (List.mem_singleton.mp h2)

theorem mem_childStep {ρ : Type} {getName : ρ → String} {skip : String → Bool}
    {mk : ρ → String → String → String → Option ArchiveEntry}
    {parent : String} {seen : List (String × ArchiveEntry)} {e : ρ}
    {x : String × ArchiveEntry}
    (h : x ∈ childStep getName skip mk parent seen e) :
    x ∈ seen ∨ ∃ v,
      skip (normalise_inner (getName e)) = false ∧
      ((parent == "") || (normalise_inner (getName e) == parent)
        || (parent ++ "/").data.isPrefixOf
            (normalise_inner (getName e)).data) = true ∧
      (normalise_inner (getName e) == parent) = false ∧
      mk e (normalise_inner (getName e))
        (direct_child_path (normalise_inner (getName e)) parent)
        ⟨lastSegChars
          (direct_child_path (normalise_inner (getName e)) parent).data⟩
        = some v ∧
      x = (direct_child_path (normalise_inner (getName e)) parent, v) := by
  unfold childStep at h
  set name := normalise_inner (getName e) with hname
  rcases Bool.eq_false_or_eq_true (skip name) with hskip | hskip
  · rw [if_pos hskip] at h
    exact Or.inl h
  · rw [if_neg (by rw [hskip]; exact fun hh => nomatch hh)] at h
    rcases Bool.eq_false_or_eq_true ((parent == "") || (name == parent)
      || (parent ++ "/").data.isPrefixOf name.data) with hg | hg
    · rcases Bool.eq_false_or_eq_true (name == parent) with hne | hne
      · rw [if_pos (by rw [hg, hne]; rfl)] at h
        exact Or.inl h
      · rw [if_neg (by rw [hg, hne]; exact fun hh => nomatch hh)] at h
        cases hmk : mk e name (direct_child_path name parent)
            ⟨lastSegChars (direct_child_path name parent).data⟩ with
        | none =>
          rw [hmk] at h
          exact Or.inl h
        | some v =>
          rw [hmk] at h
          rcases mem_upsertAbsent h with h1 | h2
          · exact Or.inl h1
          · exact Or.inr ⟨v, hskip, hg, hne, rfl, h2⟩
    · rw [if_pos (by rw [hg]; rfl)] at h
      exact Or.inl h

theorem foldl_preserve {σ ρ : Type} (step : σ → ρ → σ) (Q : σ → Prop)
    (hstep : ∀ s e, Q s → Q (step s e)) :
    ∀ (raws : List ρ) (s : σ), Q s → Q (raws.foldl step s) := by
  intro raws
  induction raws with
  | nil => intro s hq; exact hq
  | cons e rs ih =>
    intro s hq
    exact ih _ (hstep s e hq)

theorem buildSeen_forall {ρ : Type} (getName : ρ → String)
    (skip : String → Bool)
    (mk : ρ → String → String → String → Option ArchiveEntry)
    (parent : String) (P : String × ArchiveEntry → Prop)
    (hmk : ∀ (e : ρ) (v : ArchiveEntry),
      skip (normalise_inner (getName e)) = false →
      ((parent == "") || (normalise_inner (getName e) == parent)
        || (parent ++ "/").data.isPrefixOf
            (normalise_inner (getName e)).data) = true →
      (normalise_inner (getName e) == parent) = false →
      mk e (normalise_inner (getName e))
        (direct_child_path (normalise_inner (getName e)) parent)
        ⟨lastSegChars
          (direct_child_path (normalise_inner (getName e)) parent).data⟩
        = some v →
      P (direct_child_path (normalise_inner (getName e)) parent, v)) :
    ∀ (raws : List ρ) (x : String × ArchiveEntry),
      x ∈ buildSeen getName skip mk parent raws → P x := by
  intro raws x hx
  refine foldl_preserve (childStep getName skip mk parent)
    (fun s => ∀ y ∈ s, P y) ?_ raws [] (by intro y hy; cases hy) x hx
  intro s e hq y hy
  rcases mem_childStep hy with h1 | ⟨v, c1, c2, c3, c4, rfl⟩
  · exact hq y h1
  · exact hmk e v c1 c2 c3 c4

/-! ## Claim C2: every listed entry is exactly one segment deep -/

theorem not_slash_of_mem_lastSegChars {c : Char} {l : List Char}
    (h : c ∈ lastSegChars l) : ¬ c = '/' := by
  unfold lastSegChars at h
  rw [List.mem_reverse] at h
  have h2 := List.mem_takeWhile_imp h
  exact of_decide_eq_true h2

theorem mem_stemChars {c : Char} {f : List Char} (h : c ∈ stemChars f) :
    c ∈ f := by
  unfold stemChars at h
  split at h
  · exact h
  · split at h
    · exact h
    · rw [List.mem_reverse] at h
      have := (List.drop_sublist _ _).subset h
      rwa [List.mem_reverse] at this

/-- No character of the synthesized single-file stem is a slash. -/
theorem no_slash_in_single_stem (p : String) :
    ∀ c ∈ ((path_file_stem p).getD "file").data, ¬ c = '/' := by
  intro c hc
  cases hp : path_file_stem p with
  | none =>
    rw [hp] at hc
    simp only [Option.getD] at hc
    intro heq
    rw [heq] at hc
    exact absurd hc (by decide)
  | some s =>
    rw [hp] at hc
    simp only [Option.getD] at hc
    unfold path_file_stem at hp
    by_cases hcond : fileNameChars p = [] ∨ fileNameChars p = ['.']
        ∨ fileNameChars p = ['.', '.']
    · rw [if_pos hcond] at hp
      cases hp
    · rw [if_neg hcond] at hp
      cases hp
      have hmem : c ∈ stemChars (fileNameChars p) := hc
      have : c ∈ fileNameChars p := mem_stemChars hmem
      exact not_slash_of_mem_lastSegChars this

/-- Invariant of the listing loop: each stored pair has the entry's
`inner_path` equal to its key, and that key is one segment below `parent`
(a fixed point of `direct_child_path`). -/
theorem buildSeen_key_fixed {ρ : Type} (getName : ρ → String)
    (skip : String → Bool)
    (mk : ρ → String → String → String → Option ArchiveEntry)
    (parent : String)
    (hinner : ∀ (e : ρ) (name cp cn : String) (v : ArchiveEntry),
      mk e name cp cn = some v → v.inner_path = cp) :
    ∀ (raws : List ρ) (x : String × ArchiveEntry),
      x ∈ buildSeen getName skip mk parent raws →
      x.2.inner_path = x.1 ∧ direct_child_path x.1 parent = x.1 := by
  intro raws x hx
  refine buildSeen_forall getName skip mk parent
    (fun x => x.2.inner_path = x.1 ∧ direct_child_path x.1 parent = x.1)
    ?_ raws x hx
  intro e v h1 h2 h3 h4
  exact ⟨hinner _ _ _ _ _ h4, dcp_key_fixed parent _ h2 h3⟩

theorem zipMk_inner (e : ZipRawEntry) (name cp cn : String)
    (v : ArchiveEntry) (h : zipMk e name cp cn = some v) :
    v.inner_path = cp := by
  unfold zipMk at h
  by_cases hc : (cp == name) = true
  · rw [if_pos hc] at h
    cases h
    rfl
  · rw [if_neg hc] at h
    cases h
    rfl

theorem tarMk_inner (fm : String) (e : TarRawEntry) (name cp cn : String)
    (v : ArchiveEntry) (h : tarMk fm e name cp cn = some v) :
    v.inner_path = cp := by
  unfold tarMk at h
  by_cases hc : (cp == name) = true
  · rw [if_pos hc] at h
    cases h
    rfl
  · rw [if_neg hc] at h
    cases h
    rfl

theorem cabMk_inner (e : CabRawEntry) (name cp cn : String)
    (v : ArchiveEntry) (h : cabMk e name cp cn = some v) :
    v.inner_path = cp := by
  unfold cabMk at h
  by_cases hc : (cp == name) = true
  · rw [if_pos hc] at h
    cases h
    rfl
  · rw [if_neg hc] at h
    cases h

/-- Claim C2: for every archive and every `inner_path`, every entry of the
returned listing has an `inner_path` exactly one path segment deeper than
the listing's `inner_path`: `direct_child_path entry.inner_path inner_path
= entry.inner_path`.  Stated for the Zip, Tar and Cab backends and for the
single-file-compressed listing. -/
theorem claim_C2_one_segment_deeper :
    (∀ (raws : List ZipRawEntry) (ap ip : String),
      ∀ e ∈ (list_zip raws ap ip).entries,
        direct_child_path e.inner_path (list_zip raws ap ip).inner_path
          = e.inner_path)
    ∧ (∀ (raws : List TarRawEntry) (ap ip fm : String),
      ∀ e ∈ (list_tar_reader raws ap ip fm).entries,
        direct_child_path e.inner_path
          (list_tar_reader raws ap ip fm).inner_path = e.inner_path)
    ∧ (∀ (raws : List CabRawEntry) (ap ip : String),
      ∀ e ∈ (list_cab raws ap ip).entries,
        direct_child_path e.inner_path (list_cab raws ap ip).inner_path
          = e.inner_path)
    ∧ (∀ (fmt : ArchiveFormat) (ap : String) (n : Nat),
      ∀ e ∈ (list_archive_single fmt ap n).entries,
        direct_child_path e.inner_path
          (list_archive_single fmt ap n).inner_path = e.inner_path) := by
  refine ⟨?_, ?_, ?_, ?_⟩
  · intro raws ap ip e he
    have he' : e ∈ List.insertionSort entryLE
        ((buildSeen (fun e => e.raw_name) zipSkip zipMk
          (normalise_inner ip) raws).map (fun p => p.2)) := he
    rw [List.mem_insertionSort] at he'
    rcases List.mem_map.mp he' with ⟨x, hx, hxe⟩
    obtain ⟨h1, h2⟩ := buildSeen_key_fixed _ _ _ _ zipMk_inner raws x hx
    show direct_child_path e.inner_path (normalise_inner ip) = e.inner_path
    rw [← hxe, h1, h2]
  · intro raws ap ip fm e he
    have he' : e ∈ List.insertionSort entryLE
        ((buildSeen (fun e => e.path_raw) tarSkip (tarMk fm)
          (normalise_inner ip) raws).map (fun p => p.2)) := he
    rw [List.mem_insertionSort] at he'
    rcases List.mem_map.mp he' with ⟨x, hx, hxe⟩
    obtain ⟨h1, h2⟩ := buildSeen_key_fixed _ _ _ _ (tarMk_inner fm) raws x hx
    show direct_child_path e.inner_path (normalise_inner ip) = e.inner_path
    rw [← hxe, h1, h2]
  · intro raws ap ip e he
    have he' : e ∈ List.insertionSort nameLE
        ((buildSeen (fun e => e.name) zipSkip cabMk
          (normalise_inner ip) raws).map (fun p => p.2)) := he
    rw [List.mem_insertionSort] at he'
    rcases List.mem_map.mp he' with ⟨x, hx, hxe⟩
    obtain ⟨h1, h2⟩ := buildSeen_key_fixed _ _ _ _ cabMk_inner raws x hx
    show direct_child_path e.inner_path (normalise_inner ip) = e.inner_path
    rw [← hxe, h1, h2]
  · intro fmt ap n e he
    have he' : e ∈ [(⟨(path_file_stem ap).getD "file",
        (path_file_stem ap).getD "file", ArchiveEntryType.File, n, n, 0,
        fmt.as_str⟩ : ArchiveEntry)] := he
    rcases List.mem_singleton.mp he' with rfl
    show direct_child_path ((path_file_stem ap).getD "file") "" =
      (path_file_stem ap).getD "file"
    unfold direct_child_path
    rw [if_pos rfl]
    apply strEq_of_data
    show firstSegChars ((path_file_stem ap).getD "file").data
      = ((path_file_stem ap).getD "file").data
    exact takeWhile_eq_self_of_forall fun c hc =>
      decide_eq_true (no_slash_in_single_stem ap c hc)

/-! ## Claim C3: the sort order -/

/-- Modelled from the spec: the sort order claim C3 asserts — directories
before files, then case-insensitive name ascending, with a stable tiebreak
on the original-case name. -/
def specSortCmp (a b : ArchiveEntry) : Ordering :=
  (boolCmp (isDirB b) (isDirB a)).then
    ((lexCmp (a.name.data.map Char.toLower)
        (b.name.data.map Char.toLower)).then
      (lexCmp a.name.data b.name.data))

def specSortLE (a b : ArchiveEntry) : Prop := specSortCmp a b ≠ Ordering.gt

instance : DecidableRel specSortLE := fun a b => by
  unfold specSortLE; infer_instance

/-- Counterexample to claim C3: the zip archive holding the two root files
`B` and `a` is listed as `["B", "a"]` (byte order), which is not sorted
under the claimed case-insensitive order (`a` < `B` case-insensitively). -/
theorem claim_C3_counterexample :
    ((list_zip [⟨"B", false, 1, 1, 0, "Deflated"⟩,
        ⟨"a", false, 2, 2, 0, "Deflated"⟩] "t.zip" "").entries.map
      (fun e => e.name)) = ["B", "a"]
    ∧ ¬ List.Pairwise specSortLE
      (list_zip [⟨"B", false, 1, 1, 0, "Deflated"⟩,
        ⟨"a", false, 2, 2, 0, "Deflated"⟩] "t.zip" "").entries := by
  constructor
  · decide
  · decide

/-- Claim C3 (amended): every listing is sorted with all Directory entries
before all File entries and then by name ascending compared byte-wise
(case-SENSITIVELY, no case folding and no separate tiebreak); `list_cab`
sorts by name only.  Sortedness is with respect to the non-strict order
`cmp ≠ gt` of the comparator passed to `sort_by`. -/
theorem claim_C3_sorted :
    (∀ (raws : List ZipRawEntry) (ap ip : String),
      List.Pairwise entryLE (list_zip raws ap ip).entries)
    ∧ (∀ (raws : List TarRawEntry) (ap ip fm : String),
      List.Pairwise entryLE (list_tar_reader raws ap ip fm).entries)
    ∧ (∀ (raws : List CabRawEntry) (ap ip : String),
      List.Pairwise nameLE (list_cab raws ap ip).entries) := by
  refine ⟨?_, ?_, ?_⟩
  · intro raws ap ip
    exact List.sorted_insertionSort entryLE
      ((buildSeen (fun e => e.raw_name) zipSkip zipMk
        (normalise_inner ip) raws).map (fun p => p.2))
  · intro raws ap ip fm
    exact List.sorted_insertionSort entryLE
      ((buildSeen (fun e => e.path_raw) tarSkip (tarMk fm)
        (normalise_inner ip) raws).map (fun p => p.2))
  · intro raws ap ip
    exact List.sorted_insertionSort nameLE
      ((buildSeen (fun e => e.name) zipSkip cabMk
        (normalise_inner ip) raws).map (fun p => p.2))

/-! ## First-writer-wins analysis of the listing map (claims C1 and C4) -/

/-- Whether one raw entry passes all loop guards and targets key `k`. -/
def producesB {ρ : Type} (getName : ρ → String) (skip : String → Bool)
    (parent : String) (e : ρ) (k : String) : Bool :=
  !(skip (normalise_inner (getName e)))
  && ((parent == "") || (normalise_inner (getName e) == parent)
      || (parent ++ "/").data.isPrefixOf (normalise_inner (getName e)).data)
  && !(normalise_inner (getName e) == parent)
  && (direct_child_path (normalise_inner (getName e)) parent == k)

theorem assocFind_append_single (seen : List (String × ArchiveEntry))
    (kk k : String) (w : ArchiveEntry) (h : assocFind seen k = none) :
    assocFind (seen ++ [(kk, w)]) k
      = if (kk == k) = true then some w else none := by
  unfold assocFind at h ⊢
  rw [Option.map_eq_none'] at h
  rw [List.find?_append, h, Option.none_or]
  by_cases hkk : (kk == k) = true
  · have hfind : List.find? (fun p : String × ArchiveEntry => p.1 == k)
        [(kk, w)] = some (kk, w) :=
      List.find?_cons_of_pos _ hkk
    rw [if_pos hkk, hfind]
    rfl
  · have hfind : List.find? (fun p : String × ArchiveEntry => p.1 == k)
        [(kk, w)]
        = List.find? (fun p : String × ArchiveEntry => p.1 == k) [] :=
      List.find?_cons_of_neg _ hkk
    rw [if_neg hkk, hfind]
    rfl

theorem assocFind_upsert_some {seen : List (String × ArchiveEntry)}
    {k : String} {v : ArchiveEntry} (kk : String) (w : ArchiveEntry)
    (h : assocFind seen k = some v) :
    assocFind (upsertAbsent seen kk w) k = some v := by
  unfold upsertAbsent
  by_cases hc : seen.any (fun p => p.1 == kk) = true
  · rw [if_pos hc]
    exact h
  · rw [if_neg hc]
    unfold assocFind at h ⊢
    rw [List.find?_append]
    rcases ho : List.find? (fun p => p.1 == k) seen with _ | p
    · rw [ho] at h
      cases h
    · rw [ho] at h
      rw [ho, Option.or_some]
      exact h

theorem any_eq_false_of_assocFind_none {seen : List (String × ArchiveEntry)}
    {k : String} (h : assocFind seen k = none) :
    seen.any (fun p => p.1 == k) = false := by
  unfold assocFind at h
  rw [Option.map_eq_none', List.find?_eq_none] at h
  rw [Bool.eq_false_iff]
  intro hany
  rcases List.any_eq_true.mp hany with ⟨p, hp1, hp2⟩
  exact absurd hp2 (h p hp1)

theorem assocFind_upsert_none_ne {seen : List (String × ArchiveEntry)}
    {k : String} (kk : String) (w : ArchiveEntry)
    (hkne : (kk == k) = false) (h : assocFind seen k = none) :
    assocFind (upsertAbsent seen kk w) k = none := by
  unfold upsertAbsent
  by_cases hc : seen.any (fun p => p.1 == kk) = true
  · rw [if_pos hc]
    exact h
  · rw [if_neg hc]
    rw [assocFind_append_single _ _ _ _ h,
      if_neg (by rw [hkne]; exact fun hh => nomatch hh)]

theorem assocFind_upsert_none_eq {seen : List (String × ArchiveEntry)}
    {k : String} (kk : String) (w : ArchiveEntry)
    (hkk : (kk == k) = true) (h : assocFind seen k = none) :
    assocFind (upsertAbsent seen kk w) k = some w := by
  unfold upsertAbsent
  have hkeq : kk = k := beq_iff_eq.mp hkk
  subst hkeq
  rw [if_neg (by
    rw [any_eq_false_of_assocFind_none h]
    exact fun hh => nomatch hh)]
  rw [assocFind_append_single _ _ _ _ h, if_pos hkk]

/-- Persistence: once a key is bound in the map, no later loop iteration
changes its value (`or_insert_with` never overwrites). -/
theorem assocFind_childStep_some {ρ : Type} {getName : ρ → String}
    {skip : String → Bool}
    {mk : ρ → String → String → String → Option ArchiveEntry}
    {parent : String} {seen : List (String × ArchiveEntry)} {e : ρ}
    {k : String} {v : ArchiveEntry} (h : assocFind seen k = some v) :
    assocFind (childStep getName skip mk parent seen e) k = some v := by
  unfold childStep
  rcases Bool.eq_false_or_eq_true (skip (normalise_inner (getName e)))
    with hskip | hskip
  · rw [if_pos hskip]
    exact h
  · rw [if_neg (by rw [hskip]; exact fun hh => nomatch hh)]
    rcases Bool.eq_false_or_eq_true ((parent == "")
      || (normalise_inner (getName e) == parent)
      || (parent ++ "/").data.isPrefixOf (normalise_inner (getName e)).data)
      with hg | hg
    · rcases Bool.eq_false_or_eq_true (normalise_inner (getName e) == parent)
        with hne | hne
      · rw [if_pos (by rw [hg, hne]; rfl)]
        exact h
      · rw [if_neg (by rw [hg, hne]; exact fun hh => nomatch hh)]
        cases hmk : mk e (normalise_inner (getName e))
            (direct_child_path (normalise_inner (getName e)) parent)
            ⟨lastSegChars
              (direct_child_path (normalise_inner (getName e)) parent).data⟩
          with
        | none => exact h
        | some w => exact assocFind_upsert_some _ _ h
    · rw [if_pos (by rw [hg]; rfl)]
      exact h

/-- A loop iteration that does not produce key `k` leaves `k` unbound. -/
theorem assocFind_childStep_none {ρ : Type} {getName : ρ → String}
    {skip : String → Bool}
    {mk : ρ → String → String → String → Option ArchiveEntry}
    {parent : String} {seen : List (String × ArchiveEntry)} {e : ρ}
    {k : String} (hnp : producesB getName skip parent e k = false)
    (h : assocFind seen k = none) :
    assocFind (childStep getName skip mk parent seen e) k = none := by
  unfold producesB at hnp
  unfold childStep
  rcases Bool.eq_false_or_eq_true (skip (normalise_inner (getName e)))
    with hskip | hskip
  · rw [if_pos hskip]
    exact h
  · rw [if_neg (by rw [hskip]; exact fun hh => nomatch hh)]
    rcases Bool.eq_false_or_eq_true ((parent == "")
      || (normalise_inner (getName e) == parent)
      || (parent ++ "/").data.isPrefixOf (normalise_inner (getName e)).data)
      with hg | hg
    · rcases Bool.eq_false_or_eq_true (normalise_inner (getName e) == parent)
        with hne | hne
      · rw [if_pos (by rw [hg, hne]; rfl)]
        exact h
      · rw [if_neg (by rw [hg, hne]; exact fun hh => nomatch hh)]
        have hkne : (direct_child_path (normalise_inner (getName e)) parent
            == k) = false := by
          rw [hskip, hg, hne] at hnp
          simpa using hnp
        cases hmk : mk e (normalise_inner (getName e))
            (direct_child_path (normalise_inner (getName e)) parent)
            ⟨lastSegChars
              (direct_child_path (normalise_inner (getName e)) parent).data⟩
          with
        | none => exact h
        | some w => exact assocFind_upsert_none_ne _ _ hkne h
    · rw [if_pos (by rw [hg]; rfl)]
      exact h

/-- The first loop iteration that produces key `k` binds it to the entry it
constructs. -/
theorem assocFind_childStep_produce {ρ : Type} {getName : ρ → String}
    {skip : String → Bool}
    {mk : ρ → String → String → String → Option ArchiveEntry}
    {parent : String} {seen : List (String × ArchiveEntry)} {e : ρ}
    {k : String} {v : ArchiveEntry}
    (hp : producesB getName skip parent e k = true)
    (hmk : mk e (normalise_inner (getName e))
      (direct_child_path (normalise_inner (getName e)) parent)
      ⟨lastSegChars
        (direct_child_path (normalise_inner (getName e)) parent).data⟩
      = some v)
    (h : assocFind seen k = none) :
    assocFind (childStep getName skip mk parent seen e) k = some v := by
  unfold producesB at hp
  rw [Bool.and_eq_true, Bool.and_eq_true, Bool.and_eq_true] at hp
  obtain ⟨⟨⟨hskip, hg⟩, hne⟩, hdcp⟩ := hp
  rw [Bool.not_eq_true'] at hskip hne
  unfold childStep
  rw [if_neg (by rw [hskip]; exact fun hh => nomatch hh)]
  rw [if_neg (by rw [hg, hne]; exact fun hh => nomatch hh)]
  rw [hmk]
  exact assocFind_upsert_none_eq _ _ hdcp h

/-- The synthesized Directory placeholder the zip/tar loops insert for an
intermediate path (`else` branch of the upsert). -/
def synthDirEntry (k compression : String) : ArchiveEntry :=
  ⟨⟨lastSegChars k.data⟩, k, ArchiveEntryType.Directory, 0, 0, 0, compression⟩

theorem mem_values_of_assocFind {seen : List (String × ArchiveEntry)}
    {k : String} {v : ArchiveEntry} (h : assocFind seen k = some v) :
    v ∈ seen.map (fun p => p.2) := by
  unfold assocFind at h
  cases hf : List.find? (fun p => p.1 == k) seen with
  | none =>
    rw [hf] at h
    cases h
  | some q =>
    rw [hf] at h
    cases h
    exact List.mem_map.mpr ⟨q, List.mem_of_find?_eq_some hf, rfl⟩

theorem foldl_childStep_some {ρ : Type} {getName : ρ → String}
    {skip : String → Bool}
    {mk : ρ → String → String → String → Option ArchiveEntry}
    {parent : String} {k : String} {v : ArchiveEntry}
    (raws : List ρ) (seen : List (String × ArchiveEntry))
    (h : assocFind seen k = some v) :
    assocFind (raws.foldl (childStep getName skip mk parent) seen) k
      = some v :=
  foldl_preserve _ (fun s => assocFind s k = some v)
    (fun _ _ hq => assocFind_childStep_some hq) raws seen h

theorem foldl_childStep_none {ρ : Type} {getName : ρ → String}
    {skip : String → Bool}
    {mk : ρ → String → String → String → Option ArchiveEntry}
    {parent : String} {k : String} :
    ∀ (raws : List ρ) (seen : List (String × ArchiveEntry)),
    (∀ e' ∈ raws, producesB getName skip parent e' k = false) →
    assocFind seen k = none →
    assocFind (raws.foldl (childStep getName skip mk parent) seen) k
      = none := by
  intro raws
  induction raws with
  | nil =>
    intro seen _ h
    exact h
  | cons e rs ih =>
    intro seen hnp h
    exact ih _ (fun e' he' => hnp e' (List.mem_cons_of_mem e he'))
      (assocFind_childStep_none (hnp e (List.mem_cons_self e rs)) h)

/-- If some entry of the stream produces key `k`, and every entry that
produces `k` constructs the same value `w`, the final map binds `k` to
`w`. -/
theorem foldl_childStep_synth {ρ : Type} {getName : ρ → String}
    {skip : String → Bool}
    {mk : ρ → String → String → String → Option ArchiveEntry}
    {parent : String} {k : String} {w : ArchiveEntry} :
    ∀ (raws : List ρ) (seen : List (String × ArchiveEntry)),
    (∀ e' ∈ raws, producesB getName skip parent e' k = true →
      mk e' (normalise_inner (getName e'))
        (direct_child_path (normalise_inner (getName e')) parent)
        ⟨lastSegChars
          (direct_child_path (normalise_inner (getName e')) parent).data⟩
        = some w) →
    (∃ e ∈ raws, producesB getName skip parent e k = true) →
    assocFind seen k = none →
    assocFind (raws.foldl (childStep getName skip mk parent) seen) k
      = some w := by
  intro raws
  induction raws with
  | nil =>
    intro seen _ hex _
    rcases hex with ⟨e, he, _⟩
    cases he
  | cons e rs ih =>
    intro seen hval hex h
    rcases Bool.eq_false_or_eq_true (producesB getName skip parent e k)
      with hpe | hpe
    · exact foldl_childStep_some rs _
        (assocFind_childStep_produce hpe
          (hval e (List.mem_cons_self e rs) hpe) h)
    · rcases hex with ⟨e', he', hpe'⟩
      rcases List.mem_cons.mp he' with rfl | he's
      · rw [hpe] at hpe'
        cases hpe'
      · exact ih _ (fun x hx hp => hval x (List.mem_cons_of_mem e hx) hp)
          ⟨e', he's, hpe'⟩ (assocFind_childStep_none hpe h)

/-- When no entry is stored at key `k` itself, the zip loop's construction
for any producer of `k` is the synthesized `"Stored"` directory. -/
theorem zipMk_synth (e : ZipRawEntry) (k : String)
    (hne : (k == normalise_inner e.raw_name) = false) :
    zipMk e (normalise_inner e.raw_name) k ⟨lastSegChars k.data⟩
      = some (synthDirEntry k "Stored") := by
  unfold zipMk synthDirEntry
  rw [if_neg (by rw [hne]; exact fun hh => nomatch hh)]

theorem tarMk_synth (fm : String) (e : TarRawEntry) (k : String)
    (hne : (k == normalise_inner e.path_raw) = false) :
    tarMk fm e (normalise_inner e.path_raw) k ⟨lastSegChars k.data⟩
      = some (synthDirEntry k fm) := by
  unfold tarMk synthDirEntry
  rw [if_neg (by rw [hne]; exact fun hh => nomatch hh)]

/-! ## Claim C1: synthesized intermediate directories -/

/-- Counterexample to claim C1: the CAB backend synthesizes nothing — for a
cabinet whose only record is `a/b/c.txt`, `list_cab` at the root returns an
empty listing instead of one synthesized Directory entry named `a`. -/
theorem claim_C1_counterexample :
    (list_cab [⟨"a/b/c.txt", 3, 2, "MsZip"⟩] "t.cab" "").entries = [] := by
  decide

/-- Claim C1 (amended): for the Zip and Tar backends (the other hierarchical
backends are analogous), if the archive holds an entry whose normalized
path lies strictly below the listed `inner_path` by two or more segments
(`direct_child_path name parent ≠ name`), and no entry's normalized path
equals the intermediate direct-child key itself, then the listing contains
a synthesized Directory entry at that key with size 0, compressed_size 0,
modified 0 and the synthetic compression label (`"Stored"` for Zip, the
format label for Tar).  The CAB backend synthesizes no directory entries
(see the counterexample).  Moreover, for a zip archive containing only
`a/b/c.txt`, listing the root yields exactly one Directory entry named
`a`. -/
theorem claim_C1_synthesized_directories :
    (∀ (raws : List ZipRawEntry) (ap ip : String) (e : ZipRawEntry),
      e ∈ raws →
      zipSkip (normalise_inner e.raw_name) = false →
      ((normalise_inner ip == "")
        || (normalise_inner e.raw_name == normalise_inner ip)
        || (normalise_inner ip ++ "/").data.isPrefixOf
            (normalise_inner e.raw_name).data) = true →
      (normalise_inner e.raw_name == normalise_inner ip) = false →
      (direct_child_path (normalise_inner e.raw_name) (normalise_inner ip)
        == normalise_inner e.raw_name) = false →
      (∀ e' ∈ raws, (normalise_inner e'.raw_name
        == direct_child_path (normalise_inner e.raw_name)
            (normalise_inner ip)) = false) →
      synthDirEntry (direct_child_path (normalise_inner e.raw_name)
          (normalise_inner ip)) "Stored"
        ∈ (list_zip raws ap ip).entries)
    ∧ (∀ (raws : List TarRawEntry) (ap ip fm : String) (e : TarRawEntry),
      e ∈ raws →
      tarSkip (normalise_inner e.path_raw) = false →
      ((normalise_inner ip == "")
        || (normalise_inner e.path_raw == normalise_inner ip)
        || (normalise_inner ip ++ "/").data.isPrefixOf
            (normalise_inner e.path_raw).data) = true →
      (normalise_inner e.path_raw == normalise_inner ip) = false →
      (direct_child_path (normalise_inner e.path_raw) (normalise_inner ip)
        == normalise_inner e.path_raw) = false →
      (∀ e' ∈ raws, (normalise_inner e'.path_raw
        == direct_child_path (normalise_inner e.path_raw)
            (normalise_inner ip)) = false) →
      synthDirEntry (direct_child_path (normalise_inner e.path_raw)
          (normalise_inner ip)) fm
        ∈ (list_tar_reader raws ap ip fm).entries)
    ∧ (list_zip [⟨"a/b/c.txt", false, 3, 2, 100, "Deflated"⟩] "t.zip"
        "").entries
      = [⟨"a", "a", ArchiveEntryType.Directory, 0, 0, 0, "Stored"⟩] := by
  refine ⟨?_, ?_, by decide⟩
  · intro raws ap ip e he hskip hg hne hdeep hnox
    have hfind : assocFind (buildSeen (fun e => e.raw_name) zipSkip zipMk
        (normalise_inner ip) raws)
        (direct_child_path (normalise_inner e.raw_name)
          (normalise_inner ip))
        = some (synthDirEntry (direct_child_path
            (normalise_inner e.raw_name) (normalise_inner ip)) "Stored") := by
      refine foldl_childStep_synth raws [] ?_ ⟨e, he, ?_⟩ rfl
      · intro e' he' hpe'
        unfold producesB at hpe'
        rw [Bool.and_eq_true, Bool.and_eq_true, Bool.and_eq_true] at hpe'
        obtain ⟨_, hdcp'⟩ := hpe'
        have hkeq := beq_iff_eq.mp hdcp'
        rw [← hkeq]
        rw [← hkeq] at hnox
        have hne' : (direct_child_path (normalise_inner e'.raw_name)
            (normalise_inner ip) == normalise_inner e'.raw_name) = false := by
          rw [beq_eq_false_iff_ne]
          intro habs
          have := hnox e' he'
          rw [beq_eq_false_iff_ne] at this
          exact this habs.symm
        exact zipMk_synth e' _ hne'
      · unfold producesB
        rw [hskip, hg, hne, beq_self_eq_true]
        rfl
    exact (List.mem_insertionSort _).mpr (mem_values_of_assocFind hfind)
  · intro raws ap ip fm e he hskip hg hne hdeep hnox
    have hfind : assocFind (buildSeen (fun e => e.path_raw) tarSkip
        (tarMk fm) (normalise_inner ip) raws)
        (direct_child_path (normalise_inner e.path_raw)
          (normalise_inner ip))
        = some (synthDirEntry (direct_child_path
            (normalise_inner e.path_raw) (normalise_inner ip)) fm) := by
      refine foldl_childStep_synth raws [] ?_ ⟨e, he, ?_⟩ rfl
      · intro e' he' hpe'
        unfold producesB at hpe'
        rw [Bool.and_eq_true, Bool.and_eq_true, Bool.and_eq_true] at hpe'
        obtain ⟨_, hdcp'⟩ := hpe'
        have hkeq := beq_iff_eq.mp hdcp'
        rw [← hkeq]
        rw [← hkeq] at hnox
        have hne' : (direct_child_path (normalise_inner e'.path_raw)
            (normalise_inner ip) == normalise_inner e'.path_raw) = false := by
          rw [beq_eq_false_iff_ne]
          intro habs
          have := hnox e' he'
          rw [beq_eq_false_iff_ne] at this
          exact this habs.symm
        exact tarMk_synth fm e' _ hne'
      · unfold producesB
        rw [hskip, hg, hne, beq_self_eq_true]
        rfl
    exact (List.mem_insertionSort _).mpr (mem_values_of_assocFind hfind)

/-- Witness for claim C1's amended synthesis clause, at the concrete zip
archive containing only `a/b/c.txt`, listed at the root. -/
theorem claim_C1_synthesized_directories_witness :
    synthDirEntry (direct_child_path (normalise_inner "a/b/c.txt")
        (normalise_inner "")) "Stored"
      ∈ (list_zip [⟨"a/b/c.txt", false, 3, 2, 100, "Deflated"⟩] "t.zip"
          "").entries :=
  claim_C1_synthesized_directories.1
    [⟨"a/b/c.txt", false, 3, 2, 100, "Deflated"⟩] "t.zip" ""
    ⟨"a/b/c.txt", false, 3, 2, 100, "Deflated"⟩
    (by decide) (by decide) (by decide) (by decide) (by decide) (by decide)

/-! ## Claim C4: explicit-vs-synthesized precedence -/

/-- Counterexample to claim C4: the same zip entry set (an explicit file
`a` plus the deeper `a/b.txt`) yields different listings under the two
iteration orders — the outcome is not independent of backend iteration
order. -/
theorem claim_C4_counterexample :
    (list_zip [⟨"a", false, 5, 3, 100, "Deflated"⟩,
        ⟨"a/b.txt", false, 7, 4, 200, "Deflated"⟩] "t.zip" "").entries
    ≠ (list_zip [⟨"a/b.txt", false, 7, 4, 200, "Deflated"⟩,
        ⟨"a", false, 5, 3, 100, "Deflated"⟩] "t.zip" "").entries := by
  decide

/-- Claim C4 (amended): precedence is first-writer-wins in backend
iteration order, not explicit-over-synthesized.  For the Zip backend: if
`e` passes the loop guards and targets child key `k`, and no earlier entry
of the stream targets `k`, then the listing map binds `k` to exactly the
entry the loop constructs from `e` (its real metadata when `e`'s normalized
path equals `k`, a synthesized Directory otherwise), and that entry appears
in the final listing.  Together with the counterexample this shows the
outcome depends on iteration order whenever an explicit entry follows a
deeper entry with the same key. -/
theorem claim_C4_first_writer_wins :
    ∀ (pre post : List ZipRawEntry) (ap ip : String) (e : ZipRawEntry)
      (k : String) (v : ArchiveEntry),
      producesB (fun e => e.raw_name) zipSkip (normalise_inner ip) e k
        = true →
      zipMk e (normalise_inner e.raw_name)
        (direct_child_path (normalise_inner e.raw_name) (normalise_inner ip))
        ⟨lastSegChars (direct_child_path (normalise_inner e.raw_name)
          (normalise_inner ip)).data⟩ = some v →
      (∀ e' ∈ pre, producesB (fun e => e.raw_name) zipSkip
        (normalise_inner ip) e' k = false) →
      assocFind (buildSeen (fun e => e.raw_name) zipSkip zipMk
        (normalise_inner ip) (pre ++ e :: post)) k = some v
      ∧ v ∈ (list_zip (pre ++ e :: post) ap ip).entries := by
  intro pre post ap ip e k v hp hmk hpre
  have h1 : assocFind (List.foldl (childStep (fun e => e.raw_name) zipSkip
      zipMk (normalise_inner ip)) [] pre) k = none :=
    foldl_childStep_none pre [] hpre rfl
  have h2 := assocFind_childStep_produce hp hmk h1
  have h3 : assocFind (buildSeen (fun e => e.raw_name) zipSkip zipMk
      (normalise_inner ip) (pre ++ e :: post)) k = some v := by
    unfold buildSeen
    rw [List.foldl_append, List.foldl_cons]
    exact foldl_childStep_some post _ h2
  exact ⟨h3, (List.mem_insertionSort _).mpr (mem_values_of_assocFind h3)⟩

/-- Witness for claim C4's amended clause: the explicit file `a` iterated
first wins the key `"a"` against the later deeper entry `a/b.txt`. -/
theorem claim_C4_first_writer_wins_witness :
    assocFind (buildSeen (fun e => e.raw_name) zipSkip zipMk
      (normalise_inner "")
      ([] ++ (⟨"a", false, 5, 3, 100, "Deflated"⟩ : ZipRawEntry) ::
        [⟨"a/b.txt", false, 7, 4, 200, "Deflated"⟩])) "a"
      = some ⟨"a", "a", ArchiveEntryType.File, 5, 3, 100, "Deflated"⟩
    ∧ (⟨"a", "a", ArchiveEntryType.File, 5, 3, 100, "Deflated"⟩ :
        ArchiveEntry)
      ∈ (list_zip ([] ++ (⟨"a", false, 5, 3, 100, "Deflated"⟩ :
          ZipRawEntry) :: [⟨"a/b.txt", false, 7, 4, 200, "Deflated"⟩])
          "t.zip" "").entries :=
  claim_C4_first_writer_wins [] [⟨"a/b.txt", false, 7, 4, 200, "Deflated"⟩]
    "t.zip" "" ⟨"a", false, 5, 3, 100, "Deflated"⟩ "a"
    ⟨"a", "a", ArchiveEntryType.File, 5, 3, 100, "Deflated"⟩
    (by decide) (by decide) (by decide)

/-! ## Reading one entry (archive.rs, `read_*_file`) -/

/-- The function `read_zip_file` (archive.rs lines 842-855): normalise the target, then
`zip.by_name(target)` — an exact lookup against the *stored* entry names —
falling back to the trailing-slash variant; the matched entry's
decompressed contents are returned whole.  Each pair is (stored name,
decompressed contents); `none` models the `EntryNotFound` failure. -/
def read_zip_file (entries : List (String × List UInt8))
    (inner_path : String) : Option (List UInt8) :=
  match entries.find? (fun p => p.1 == normalise_inner inner_path) with
  | some p => some p.2
  | none =>
    match entries.find?
        (fun p => p.1 == normalise_inner inner_path ++ "/") with
    | some p => some p.2
    | none => none

/-- The function `read_tar_file` (archive.rs lines 857-876): scan entries in order and
return the contents of the first whose *normalized* path equals the
normalized target; `none` models the `bail!` failure. -/
def read_tar_file (entries : List (String × List UInt8))
    (inner_path : String) : Option (List UInt8) :=
  match entries.find?
      (fun p => normalise_inner p.1 == normalise_inner inner_path) with
  | some p => some p.2
  | none => none

/-- The `Gz` arm of `read_archive_file` (archive.rs lines 1162-1168), and
identically the `Bz2`/`Xz`/`Zst` arms: decompress the entire stream and
return it — `inner_path` is never consulted.  `payload` is the decoded
stream. -/
def read_gz_file (payload : List UInt8) (inner_path : String) :
    Option (List UInt8) :=
  some payload

/-- Counterexample to claim C5: a `.gz` archive lists exactly one entry
(`data` for `data.gz`), the inner path `zzz` matches no entry, yet `read`
succeeds with the whole decompressed stream instead of failing with an
entry-not-found error. -/
theorem claim_C5_counterexample :
    ((list_archive_single ArchiveFormat.Gz "data.gz" 2).entries.map
      (fun e => e.inner_path)) = ["data"]
    ∧ normalise_inner "zzz" ≠ "data"
    ∧ read_gz_file [7, 8] "zzz" = some [7, 8] := by
  refine ⟨by decide, by decide, rfl⟩

/-- Claim C5 (amended): for the entry-based backends, `read` locates the
matching entry and returns its fully materialized decompressed bytes, and
fails with an entry-not-found error exactly when no entry matches — Tar
comparing normalized stored paths against the normalized target, Zip
looking the normalized target (or its trailing-slash variant) up against
the raw stored names.  For the single-file compressed formats
(gz/bz2/xz/zst), `read` ignores `inner_path` entirely and returns the whole
decompressed stream. -/
theorem claim_C5_read_lookup :
    (∀ (entries : List (String × List UInt8)) (ip : String),
      read_tar_file entries ip = none
        ↔ ∀ p ∈ entries, normalise_inner p.1 ≠ normalise_inner ip)
    ∧ (∀ (entries : List (String × List UInt8)) (ip : String)
        (bs : List UInt8),
      read_tar_file entries ip = some bs →
        ∃ p ∈ entries, normalise_inner p.1 = normalise_inner ip ∧ p.2 = bs)
    ∧ (∀ (entries : List (String × List UInt8)) (ip : String),
      read_zip_file entries ip = none
        ↔ ∀ p ∈ entries, p.1 ≠ normalise_inner ip
            ∧ p.1 ≠ normalise_inner ip ++ "/")
    ∧ (∀ (entries : List (String × List UInt8)) (ip : String)
        (bs : List UInt8),
      read_zip_file entries ip = some bs →
        ∃ p ∈ entries, (p.1 = normalise_inner ip
            ∨ p.1 = normalise_inner ip ++ "/") ∧ p.2 = bs)
    ∧ (∀ (payload : List UInt8) (ip : String),
      read_gz_file payload ip = some payload) := by
  refine ⟨?_, ?_, ?_, ?_, fun payload ip => rfl⟩
  · intro entries ip
    unfold read_tar_file
    constructor
    · intro h p hp
      cases hf : entries.find?
          (fun p => normalise_inner p.1 == normalise_inner ip) with
      | some q =>
        rw [hf] at h
        cases h
      | none =>
        rw [List.find?_eq_none] at hf
        have := hf p hp
        rw [beq_iff_eq] at this
        exact this
    · intro h
      cases hf : entries.find?
          (fun p => normalise_inner p.1 == normalise_inner ip) with
      | some q =>
        have hq := List.find?_some hf
        rw [beq_iff_eq] at hq
        exact absurd hq (h q (List.mem_of_find?_eq_some hf))
      | none => rfl
  · intro entries ip bs h
    unfold read_tar_file at h
    cases hf : entries.find?
        (fun p => normalise_inner p.1 == normalise_inner ip) with
    | none =>
      rw [hf] at h
      cases h
    | some q =>
      rw [hf] at h
      cases h
      have hq := List.find?_some hf
      rw [beq_iff_eq] at hq
      exact ⟨q, List.mem_of_find?_eq_some hf, hq, rfl⟩
  · intro entries ip
    unfold read_zip_file
    constructor
    · intro h p hp
      cases hf1 : entries.find? (fun p => p.1 == normalise_inner ip) with
      | some q =>
        rw [hf1] at h
        cases h
      | none =>
        cases hf2 : entries.find?
            (fun p => p.1 == normalise_inner ip ++ "/") with
        | some q =>
          rw [hf1, hf2] at h
          cases h
        | none =>
          rw [List.find?_eq_none] at hf1 hf2
          have h1 := hf1 p hp
          have h2 := hf2 p hp
          rw [beq_iff_eq] at h1 h2
          exact ⟨h1, h2⟩
    · intro h
      cases hf1 : entries.find? (fun p => p.1 == normalise_inner ip) with
      | some q =>
        have hq := List.find?_some hf1
        rw [beq_iff_eq] at hq
        exact absurd hq (h q (List.mem_of_find?_eq_some hf1)).1
      | none =>
        cases hf2 : entries.find?
            (fun p => p.1 == normalise_inner ip ++ "/") with
        | some q =>
          have hq := List.find?_some hf2
          rw [beq_iff_eq] at hq
          exact absurd hq (h q (List.mem_of_find?_eq_some hf2)).2
        | none => rfl
  · intro entries ip bs h
    unfold read_zip_file at h
    cases hf1 : entries.find? (fun p => p.1 == normalise_inner ip) with
    | some q =>
      rw [hf1] at h
      cases h
      have hq := List.find?_some hf1
      rw [beq_iff_eq] at hq
      exact ⟨q, List.mem_of_find?_eq_some hf1, Or.inl hq, rfl⟩
    | none =>
      rw [hf1] at h
      cases hf2 : entries.find?
          (fun p => p.1 == normalise_inner ip ++ "/") with
      | none =>
        rw [hf2] at h
        cases h
      | some q =>
        rw [hf2] at h
        cases h
        have hq := List.find?_some hf2
        rw [beq_iff_eq] at hq
        exact ⟨q, List.mem_of_find?_eq_some hf2, Or.inr hq, rfl⟩

/-- Witness for claim C5's amended implication clauses, at a one-entry tar
archive read back successfully. -/
theorem claim_C5_read_lookup_witness :
    ∃ p ∈ [(("docs/a.txt" : String), ([1, 2] : List UInt8))],
      normalise_inner p.1 = normalise_inner "docs/a.txt" ∧ p.2 = [1, 2] :=
  claim_C5_read_lookup.2.1 [("docs/a.txt", [1, 2])] "docs/a.txt" [1, 2]
    (by decide)

/-! ## Claim C6: single-file compressed listings -/

theorem takeWhile_append_stop {p : Char → Bool} (x : Char) (b : List Char)
    (hx : p x = false) : ∀ (a : List Char), (∀ c ∈ a, p c = true) →
    (a ++ x :: b).takeWhile p = a := by
  intro a
  induction a with
  | nil =>
    intro _
    rw [List.nil_append, List.takeWhile_cons, hx]
    exact if_neg (fun hh => nomatch hh)
  | cons c cs ih =>
    intro h
    rw [List.cons_append, List.takeWhile_cons,
      if_pos (h c (List.mem_cons_self c cs))]
    rw [ih fun d hd => h d (List.mem_cons_of_mem c hd)]

theorem dropWhile_eq_self_of_takeWhile_ne_nil {l : List Char}
    (h : l.takeWhile (fun c => c ≠ '/') ≠ []) :
    l.dropWhile (fun c => c = '/') = l := by
  cases l with
  | nil => rfl
  | cons c cs =>
    rw [List.takeWhile_cons] at h
    by_cases hc : decide (c ≠ '/') = true
    · have hcne : ¬ c = '/' := of_decide_eq_true hc
      rw [List.dropWhile_cons]
      rw [if_neg (by simp [hcne])]
    · rw [if_neg hc] at h
      exact absurd rfl h

/-- Decomposing the stem of a file name `base ++ "." ++ ext` with a
dot-free non-empty extension: the stem is exactly `base`. -/
theorem stemChars_of_decomp (base ext : List Char) (hbase : base ≠ [])
    (hdot : '.' ∉ ext) :
    stemChars (base ++ '.' :: ext) = base := by
  have hrev : (base ++ '.' :: ext).reverse
      = (ext.reverse ++ ['.']) ++ base.reverse := by
    rw [List.reverse_append, List.reverse_cons, List.append_assoc]
  have hpre : ((base ++ '.' :: ext).reverse.takeWhile (fun c => c ≠ '.'))
      = ext.reverse := by
    rw [hrev, List.append_assoc, List.singleton_append]
    refine takeWhile_append_stop '.' base.reverse (by simp) ext.reverse ?_
    intro c hc
    rw [List.mem_reverse] at hc
    exact decide_eq_true (fun habs => hdot (habs ▸ hc))
  unfold stemChars
  rw [hpre, hrev]
  have hlens : ext.reverse.length ≠ ((ext.reverse ++ ['.'])
      ++ base.reverse).length := by
    simp only [List.length_append, List.length_reverse, List.length_cons]
    have : base.length ≠ 0 := fun habs => hbase (List.length_eq_zero.mp habs)
    omega
  rw [if_neg hlens]
  have hlens2 : ext.reverse.length + 1 ≠ ((ext.reverse ++ ['.'])
      ++ base.reverse).length := by
    simp only [List.length_append, List.length_reverse, List.length_cons]
    have : base.length ≠ 0 := fun habs => hbase (List.length_eq_zero.mp habs)
    omega
  rw [if_neg hlens2]
  have hdrop : ((ext.reverse ++ ['.']) ++ base.reverse).drop
      (ext.reverse.length + 1) = base.reverse := by
    have hlen3 : ext.reverse.length + 1 = (ext.reverse ++ ['.']).length := by
      simp
    rw [hlen3, List.drop_left]
  rw [hdrop, List.reverse_reverse]

/-- Claim C6: for every single-file compressed archive (gz, bz2, xz, zst),
`list` returns exactly one File entry at the root, named after the
archive's filename with its (dot-free, non-empty) compression suffix
stripped — the stem — and sized to the compressed file's on-disk size `n`
(not the uncompressed size, which is never computed). -/
theorem claim_C6_single_file_listing :
    ∀ (fmt : ArchiveFormat) (p : String) (n : Nat) (base ext : List Char),
      lastSegChars p.data = base ++ '.' :: ext →
      base ≠ [] → ext ≠ [] → '.' ∉ ext →
      (list_archive_single fmt p n).entries
        = [⟨⟨base⟩, ⟨base⟩, ArchiveEntryType.File, n, n, 0, fmt.as_str⟩]
      ∧ (list_archive_single fmt p n).inner_path = ""
      ∧ (list_archive_single fmt p n).total_size = n := by
  intro fmt p n base ext hdecomp hbase hext hdot
  have hfname : fileNameChars p = base ++ '.' :: ext := by
    unfold fileNameChars
    have htw : p.data.reverse.takeWhile (fun c => c ≠ '/') ≠ [] := by
      intro habs
      unfold lastSegChars at hdecomp
      rw [habs] at hdecomp
      cases base with
      | nil => cases hdecomp
      | cons c cs => cases hdecomp
    have hdrop : p.data.reverse.dropWhile (fun c => c = '/')
        = p.data.reverse := dropWhile_eq_self_of_takeWhile_ne_nil htw
    rw [hdrop, List.reverse_reverse]
    exact hdecomp
  have hstem : path_file_stem p = some ⟨base⟩ := by
    unfold path_file_stem
    have hlen : (base ++ '.' :: ext).length ≥ 3 := by
      rw [List.length_append, List.length_cons]
      have h1 : base.length ≠ 0 := fun habs => hbase (List.length_eq_zero.mp habs)
      have h2 : ext.length ≠ 0 := fun habs => hext (List.length_eq_zero.mp habs)
      omega
    rw [if_neg]
    · rw [hfname, stemChars_of_decomp base ext hbase hdot]
    · rw [hfname]
      rintro (habs | habs | habs) <;>
        (rw [habs] at hlen; simp at hlen)
  constructor
  · show [(⟨(path_file_stem p).getD "file", (path_file_stem p).getD "file",
      ArchiveEntryType.File, n, n, 0, fmt.as_str⟩ : ArchiveEntry)] = _
    rw [hstem]
    rfl
  · exact ⟨rfl, rfl⟩

/-- Witness for claim C6 at the concrete archive `dir/report.v2.gz` of
on-disk size 42: one root File entry named `report.v2`, sized 42. -/
theorem claim_C6_single_file_listing_witness :
    (list_archive_single ArchiveFormat.Gz "dir/report.v2.gz" 42).entries
      = [⟨⟨"report.v2".data⟩, ⟨"report.v2".data⟩, ArchiveEntryType.File,
          42, 42, 0, ArchiveFormat.Gz.as_str⟩]
    ∧ (list_archive_single ArchiveFormat.Gz "dir/report.v2.gz" 42).inner_path
      = ""
    ∧ (list_archive_single ArchiveFormat.Gz "dir/report.v2.gz" 42).total_size
      = 42 :=
  claim_C6_single_file_listing ArchiveFormat.Gz "dir/report.v2.gz" 42
    "report.v2".data "gz".data (by decide) (by decide) (by decide)
    (by decide)

/-! ## Extraction (archive.rs, `extract_zip` / `extract_tar`)

The filesystem effects are made explicit: the loop is modelled as a fold
producing the pair (paths of files written, paths of directories created);
the Rust function's return value is the first component. -/

/-- Rust `Path::new(destination).join(&name)` for the relative normalized
`name`. -/
def joinPath (dest name : String) : String :=
  if dest = "" then name
  else if dest.data.getLast? = some '/' then dest ++ name
  else dest ++ "/" ++ name

/-- The selection test shared by every extractor (archive.rs lines
1304-1307 and copies): the entry's normalized path equals a normalized
target or begins with it plus `/`. -/
def selMatchesB (inner_paths : List String) (name : String) : Bool :=
  inner_paths.any (fun p => (name == normalise_inner p)
    || (normalise_inner p ++ "/").data.isPrefixOf name.data)

/-- One iteration of the extraction loop, shared verbatim (modulo the skip
test and field names) by `extract_zip` and `extract_tar`: skip blanks,
apply the selection filter when the selection is non-empty, then create a
directory or write a file at `destination/name`. -/
def extractStep {ρ : Type} (getName : ρ → String) (skip : String → Bool)
    (getDir : ρ → Bool) (destination : String) (inner_paths : List String)
    (acc : List String × List String) (e : ρ) : List String × List String :=
  if skip (normalise_inner (getName e)) then acc
  else if !inner_paths.isEmpty
      && !(selMatchesB inner_paths (normalise_inner (getName e))) then acc
  else if getDir e then
    (acc.1, acc.2 ++ [joinPath destination (normalise_inner (getName e))])
  else
    (acc.1 ++ [joinPath destination (normalise_inner (getName e))], acc.2)

/-- The function `extract_zip` (archive.rs lines 1293-1324): first component is the
returned `extracted` vector, second the directories created on disk. -/
def extract_zip (raws : List ZipRawEntry) (destination : String)
    (inner_paths : List String) : List String × List String :=
  raws.foldl (extractStep (fun e => e.raw_name) zipSkip (fun e => e.is_dir)
    destination inner_paths) ([], [])

/-- The function `extract_tar` (archive.rs lines 1326-1356). -/
def extract_tar (raws : List TarRawEntry) (destination : String)
    (inner_paths : List String) : List String × List String :=
  raws.foldl (extractStep (fun e => e.path_raw) tarSkip (fun e => e.is_dir)
    destination inner_paths) ([], [])

/-- The extraction filter as one Boolean: not skipped and selected. -/
def extractKeepB {ρ : Type} (getName : ρ → String) (skip : String → Bool)
    (inner_paths : List String) (e : ρ) : Bool :=
  !(skip (normalise_inner (getName e)))
  && (inner_paths.isEmpty
      || selMatchesB inner_paths (normalise_inner (getName e)))

theorem extractStep_skip {ρ : Type} {getName : ρ → String}
    {skip : String → Bool} {getDir : ρ → Bool} {dest : String}
    {sel : List String} {acc : List String × List String} {e : ρ}
    (hskip : skip (normalise_inner (getName e)) = true) :
    extractStep getName skip getDir dest sel acc e = acc := by
  unfold extractStep
  rw [if_pos hskip]

theorem extractStep_unselected {ρ : Type} {getName : ρ → String}
    {skip : String → Bool} {getDir : ρ → Bool} {dest : String}
    {sel : List String} {acc : List String × List String} {e : ρ}
    (hskip : skip (normalise_inner (getName e)) = false)
    (hsel : (sel.isEmpty
      || selMatchesB sel (normalise_inner (getName e))) = false) :
    extractStep getName skip getDir dest sel acc e = acc := by
  unfold extractStep
  rw [if_neg (by rw [hskip]; exact fun hh => nomatch hh)]
  rw [Bool.or_eq_false_iff] at hsel
  rw [if_pos (by rw [hsel.1, hsel.2]; rfl)]

theorem extractStep_dir {ρ : Type} {getName : ρ → String}
    {skip : String → Bool} {getDir : ρ → Bool} {dest : String}
    {sel : List String} {acc : List String × List String} {e : ρ}
    (hskip : skip (normalise_inner (getName e)) = false)
    (hsel : (sel.isEmpty
      || selMatchesB sel (normalise_inner (getName e))) = true)
    (hdir : getDir e = true) :
    extractStep getName skip getDir dest sel acc e
      = (acc.1, acc.2
          ++ [joinPath dest (normalise_inner (getName e))]) := by
  unfold extractStep
  rw [if_neg (by rw [hskip]; exact fun hh => nomatch hh)]
  rw [if_neg (by
    rcases Bool.or_eq_true_iff.mp hsel with h1 | h1
    · rw [h1]
      exact fun hh => nomatch hh
    · rw [h1, Bool.not_true, Bool.and_false]
      exact fun hh => nomatch hh)]
  rw [if_pos hdir]

theorem extractStep_file {ρ : Type} {getName : ρ → String}
    {skip : String → Bool} {getDir : ρ → Bool} {dest : String}
    {sel : List String} {acc : List String × List String} {e : ρ}
    (hskip : skip (normalise_inner (getName e)) = false)
    (hsel : (sel.isEmpty
      || selMatchesB sel (normalise_inner (getName e))) = true)
    (hdir : getDir e = false) :
    extractStep getName skip getDir dest sel acc e
      = (acc.1 ++ [joinPath dest (normalise_inner (getName e))],
          acc.2) := by
  unfold extractStep
  rw [if_neg (by rw [hskip]; exact fun hh => nomatch hh)]
  rw [if_neg (by
    rcases Bool.or_eq_true_iff.mp hsel with h1 | h1
    · rw [h1]
      exact fun hh => nomatch hh
    · rw [h1, Bool.not_true, Bool.and_false]
      exact fun hh => nomatch hh)]
  rw [if_neg (by rw [hdir]; exact fun hh => nomatch hh)]

/-- Closed form of the extraction fold: files written are exactly the kept
non-directory entries, directories created exactly the kept directory
entries, each at `destination/normalized-path`, in stream order. -/
theorem extract_foldl_spec {ρ : Type} (getName : ρ → String)
    (skip : String → Bool) (getDir : ρ → Bool) (dest : String)
    (sel : List String) :
    ∀ (raws : List ρ) (acc : List String × List String),
    raws.foldl (extractStep getName skip getDir dest sel) acc
      = (acc.1 ++ (raws.filter (fun e => extractKeepB getName skip sel e
            && !(getDir e))).map
          (fun e => joinPath dest (normalise_inner (getName e))),
        acc.2 ++ (raws.filter (fun e => extractKeepB getName skip sel e
            && getDir e)).map
          (fun e => joinPath dest (normalise_inner (getName e)))) := by
  intro raws
  induction raws with
  | nil =>
    intro acc
    simp
  | cons e rs ih =>
    intro acc
    rw [List.foldl_cons]
    rcases Bool.eq_false_or_eq_true (skip (normalise_inner (getName e)))
      with hskip | hskip
    · have hkeep : extractKeepB getName skip sel e = false := by
        unfold extractKeepB
        rw [hskip]
        rfl
      rw [extractStep_skip hskip, ih,
        List.filter_cons, if_neg (by rw [hkeep]; exact fun hh => nomatch hh),
        List.filter_cons, if_neg (by rw [hkeep]; exact fun hh => nomatch hh)]
    · rcases Bool.eq_false_or_eq_true
        (sel.isEmpty || selMatchesB sel (normalise_inner (getName e)))
        with hsel | hsel
      · have hkeep : extractKeepB getName skip sel e = true := by
          unfold extractKeepB
          rw [hskip, hsel]
          rfl
        rcases Bool.eq_false_or_eq_true (getDir e) with hdir | hdir
        · rw [extractStep_dir hskip hsel hdir, ih,
            List.filter_cons,
            if_neg (by rw [hkeep, hdir]; exact fun hh => nomatch hh),
            List.filter_cons,
            if_pos (by rw [hkeep, hdir]; rfl)]
          rw [List.map_cons, List.append_assoc, List.singleton_append]
        · rw [extractStep_file hskip hsel hdir, ih,
            List.filter_cons,
            if_pos (by rw [hkeep, hdir]; rfl),
            List.filter_cons,
            if_neg (by rw [hkeep, hdir]; exact fun hh => nomatch hh)]
          rw [List.map_cons, List.append_assoc, List.singleton_append]
      · have hkeep : extractKeepB getName skip sel e = false := by
          unfold extractKeepB
          rw [hskip, hsel, Bool.and_false]
        rw [extractStep_unselected hskip hsel, ih,
          List.filter_cons,
          if_neg (by rw [hkeep]; exact fun hh => nomatch hh),
          List.filter_cons,
          if_neg (by rw [hkeep]; exact fun hh => nomatch hh)]

/-! ## Claims C7 and C10: extraction filtering and returned paths -/

/-- The claim-side selection predicate: the normalized path equals one of
the normalized selection targets or is a descendant of one (begins with
the target plus `/`). -/
def specSelected (sel : List String) (name : String) : Prop :=
  ∃ p ∈ sel, name = normalise_inner p
    ∨ ∃ t, (normalise_inner p ++ "/").data ++ t = name.data

theorem selMatchesB_iff (sel : List String) (name : String) :
    selMatchesB sel name = true ↔ specSelected sel name := by
  unfold selMatchesB specSelected
  rw [List.any_eq_true]
  constructor
  · rintro ⟨p, hp, hcond⟩
    rcases Bool.or_eq_true_iff.mp hcond with h1 | h1
    · exact ⟨p, hp, Or.inl (beq_iff_eq.mp h1)⟩
    · exact ⟨p, hp, Or.inr (isPrefixOf_iff_exists_append.mp h1)⟩
  · rintro ⟨p, hp, h1 | h1⟩
    · exact ⟨p, hp, Bool.or_eq_true_iff.mpr
        (Or.inl (beq_iff_eq.mpr h1))⟩
    · exact ⟨p, hp, Bool.or_eq_true_iff.mpr
        (Or.inr (isPrefixOf_iff_exists_append.mpr h1))⟩

theorem extractKeepB_iff {ρ : Type} (getName : ρ → String)
    (skip : String → Bool) (sel : List String) (e : ρ) :
    extractKeepB getName skip sel e = true
      ↔ skip (normalise_inner (getName e)) = false
        ∧ (sel = [] ∨ specSelected sel (normalise_inner (getName e))) := by
  unfold extractKeepB
  rw [Bool.and_eq_true, Bool.not_eq_true', Bool.or_eq_true_iff]
  rw [List.isEmpty_iff, selMatchesB_iff]

/-- Claim C7: extraction writes exactly the entries that pass the
selection filter — for a non-empty selection, those whose normalized path
equals a normalized target or is a descendant of one; for an empty
selection, every entry (blank names always excluded, and `"."` for tar).
Stated as a characterization of everything materialized on disk (file
written or directory created) by the Zip and Tar extractors, plus the
concrete sibling-exclusion example. -/
theorem claim_C7_selection_filtering :
    (∀ (raws : List ZipRawEntry) (dest : String) (sel : List String)
      (out : String),
      (out ∈ (extract_zip raws dest sel).1
        ∨ out ∈ (extract_zip raws dest sel).2)
      ↔ ∃ e ∈ raws, zipSkip (normalise_inner e.raw_name) = false
          ∧ (sel = [] ∨ specSelected sel (normalise_inner e.raw_name))
          ∧ out = joinPath dest (normalise_inner e.raw_name))
    ∧ (∀ (raws : List TarRawEntry) (dest : String) (sel : List String)
      (out : String),
      (out ∈ (extract_tar raws dest sel).1
        ∨ out ∈ (extract_tar raws dest sel).2)
      ↔ ∃ e ∈ raws, tarSkip (normalise_inner e.path_raw) = false
          ∧ (sel = [] ∨ specSelected sel (normalise_inner e.path_raw))
          ∧ out = joinPath dest (normalise_inner e.path_raw))
    ∧ (extract_zip [⟨"a/b", false, 1, 1, 0, "Deflated"⟩,
        ⟨"a/b/c.txt", false, 1, 1, 0, "Deflated"⟩,
        ⟨"a/x/d.txt", false, 1, 1, 0, "Deflated"⟩] "d" ["a/b"]).1
      = ["d/a/b", "d/a/b/c.txt"] := by
  refine ⟨?_, ?_, by decide⟩
  · intro raws dest sel out
    unfold extract_zip
    rw [extract_foldl_spec]
    simp only [List.nil_append, List.mem_append, List.mem_map,
      List.mem_filter]
    constructor
    · rintro (⟨e, ⟨he, hk⟩, hout⟩ | ⟨e, ⟨he, hk⟩, hout⟩) <;>
        (rw [Bool.and_eq_true] at hk;
         obtain ⟨hkeep, _⟩ := hk;
         obtain ⟨h1, h2⟩ := (extractKeepB_iff _ _ _ _).mp hkeep;
         exact ⟨e, he, h1, h2, hout.symm⟩)
    · rintro ⟨e, he, h1, h2, hout⟩
      have hkeep : extractKeepB (fun e => e.raw_name) zipSkip sel e
          = true := (extractKeepB_iff _ _ _ _).mpr ⟨h1, h2⟩
      rcases Bool.eq_false_or_eq_true e.is_dir with hdir | hdir
      · right
        exact ⟨e, ⟨he, by rw [hkeep, hdir]; rfl⟩, hout.symm⟩
      · left
        exact ⟨e, ⟨he, by rw [hkeep, hdir]; rfl⟩, hout.symm⟩
  · intro raws dest sel out
    unfold extract_tar
    rw [extract_foldl_spec]
    simp only [List.nil_append, List.mem_append, List.mem_map,
      List.mem_filter]
    constructor
    · rintro (⟨e, ⟨he, hk⟩, hout⟩ | ⟨e, ⟨he, hk⟩, hout⟩) <;>
        (rw [Bool.and_eq_true] at hk;
         obtain ⟨hkeep, _⟩ := hk;
         obtain ⟨h1, h2⟩ := (extractKeepB_iff _ _ _ _).mp hkeep;
         exact ⟨e, he, h1, h2, hout.symm⟩)
    · rintro ⟨e, he, h1, h2, hout⟩
      have hkeep : extractKeepB (fun e => e.path_raw) tarSkip sel e
          = true := (extractKeepB_iff _ _ _ _).mpr ⟨h1, h2⟩
      rcases Bool.eq_false_or_eq_true e.is_dir with hdir | hdir
      · right
        exact ⟨e, ⟨he, by rw [hkeep, hdir]; rfl⟩, hout.symm⟩
      · left
        exact ⟨e, ⟨he, by rw [hkeep, hdir]; rfl⟩, hout.symm⟩

theorem joinPath_inj (dest : String) {a b : String}
    (h : joinPath dest a = joinPath dest b) : a = b := by
  unfold joinPath at h
  by_cases h1 : dest = ""
  · rw [if_pos h1, if_pos h1] at h
    exact h
  · rw [if_neg h1, if_neg h1] at h
    by_cases h2 : dest.data.getLast? = some '/'
    · rw [if_pos h2, if_pos h2] at h
      apply strEq_of_data
      have hd := congrArg String.data h
      rw [String.data_append, String.data_append] at hd
      exact List.append_cancel_left hd
    · rw [if_neg h2, if_neg h2] at h
      apply strEq_of_data
      have hd := congrArg String.data h
      rw [show dest ++ "/" ++ a = (dest ++ "/") ++ a from rfl,
        show dest ++ "/" ++ b = (dest ++ "/") ++ b from rfl] at hd
      rw [String.data_append, String.data_append] at hd
      exact List.append_cancel_left hd

/-- Claim C10: the path list returned by extraction contains exactly the
output paths of the File entries whose contents were written (the kept
non-directory entries, in stream order); Directory entries only create
directories — whenever no File entry shares a directory entry's normalized
path, the directory's output path never appears in the returned list. -/
theorem claim_C10_returned_paths :
    (∀ (raws : List ZipRawEntry) (dest : String) (sel : List String),
      (extract_zip raws dest sel).1
        = (raws.filter (fun e => extractKeepB (fun e => e.raw_name) zipSkip
            sel e && !e.is_dir)).map
          (fun e => joinPath dest (normalise_inner e.raw_name)))
    ∧ (∀ (raws : List TarRawEntry) (dest : String) (sel : List String),
      (extract_tar raws dest sel).1
        = (raws.filter (fun e => extractKeepB (fun e => e.path_raw) tarSkip
            sel e && !e.is_dir)).map
          (fun e => joinPath dest (normalise_inner e.path_raw)))
    ∧ (∀ (raws : List ZipRawEntry) (dest : String) (sel : List String)
        (e : ZipRawEntry),
      e ∈ raws → e.is_dir = true →
      (∀ e' ∈ raws, e'.is_dir = false →
        normalise_inner e'.raw_name ≠ normalise_inner e.raw_name) →
      joinPath dest (normalise_inner e.raw_name)
        ∉ (extract_zip raws dest sel).1)
    ∧ (∀ (raws : List TarRawEntry) (dest : String) (sel : List String)
        (e : TarRawEntry),
      e ∈ raws → e.is_dir = true →
      (∀ e' ∈ raws, e'.is_dir = false →
        normalise_inner e'.path_raw ≠ normalise_inner e.path_raw) →
      joinPath dest (normalise_inner e.path_raw)
        ∉ (extract_tar raws dest sel).1) := by
  have hzip : ∀ (raws : List ZipRawEntry) (dest : String)
      (sel : List String),
      (extract_zip raws dest sel).1
        = (raws.filter (fun e => extractKeepB (fun e => e.raw_name) zipSkip
            sel e && !e.is_dir)).map
          (fun e => joinPath dest (normalise_inner e.raw_name)) := by
    intro raws dest sel
    unfold extract_zip
    rw [extract_foldl_spec]
    simp
  have htar : ∀ (raws : List TarRawEntry) (dest : String)
      (sel : List String),
      (extract_tar raws dest sel).1
        = (raws.filter (fun e => extractKeepB (fun e => e.path_raw) tarSkip
            sel e && !e.is_dir)).map
          (fun e => joinPath dest (normalise_inner e.path_raw)) := by
    intro raws dest sel
    unfold extract_tar
    rw [extract_foldl_spec]
    simp
  refine ⟨hzip, htar, ?_, ?_⟩
  · intro raws dest sel e he hdir hcol habs
    rw [hzip] at habs
    rcases List.mem_map.mp habs with ⟨e', he', hout⟩
    rcases List.mem_filter.mp he' with ⟨he'raws, hk⟩
    rw [Bool.and_eq_true, Bool.not_eq_true'] at hk
    exact hcol e' he'raws hk.2 (joinPath_inj dest hout)
  · intro raws dest sel e he hdir hcol habs
    rw [htar] at habs
    rcases List.mem_map.mp habs with ⟨e', he', hout⟩
    rcases List.mem_filter.mp he' with ⟨he'raws, hk⟩
    rw [Bool.and_eq_true, Bool.not_eq_true'] at hk
    exact hcol e' he'raws hk.2 (joinPath_inj dest hout)

/-- Witness for claim C10's directory clause: extracting a zip whose
directory `docs/` has no same-named file never reports the directory's
path in the returned list. -/
theorem claim_C10_returned_paths_witness :
    joinPath "d" (normalise_inner "docs/")
      ∉ (extract_zip [⟨"docs/", true, 0, 0, 0, "Stored"⟩,
          ⟨"docs/a.txt", false, 1, 1, 0, "Deflated"⟩] "d" []).1 :=
  claim_C10_returned_paths.2.2.1
    [⟨"docs/", true, 0, 0, 0, "Stored"⟩,
      ⟨"docs/a.txt", false, 1, 1, 0, "Deflated"⟩] "d" []
    ⟨"docs/", true, 0, 0, 0, "Stored"⟩
    (by decide) (by decide) (by decide)

/-- Witness for claim C2 at the concrete zip archive containing only
`a/b/c.txt`, listed at the root: the synthesized entry `a` is exactly one
segment deep. -/
theorem claim_C2_one_segment_deeper_witness :
    direct_child_path
      ((⟨"a", "a", ArchiveEntryType.Directory, 0, 0, 0, "Stored"⟩ :
        ArchiveEntry)).inner_path
      (list_zip [⟨"a/b/c.txt", false, 3, 2, 100, "Deflated"⟩] "t.zip"
        "").inner_path
    = (⟨"a", "a", ArchiveEntryType.Directory, 0, 0, 0, "Stored"⟩ :
        ArchiveEntry).inner_path :=
  claim_C2_one_segment_deeper.1
    [⟨"a/b/c.txt", false, 3, 2, 100, "Deflated"⟩] "t.zip" ""
    ⟨"a", "a", ArchiveEntryType.Directory, 0, 0, 0, "Stored"⟩
    (by decide)
